import Mathlib

/-! # FakeView: character grid, string writers, the render loop and the view

A shallow embedding of `src/FakeView/Screen.cpp` and of `View::Render` of
`src/FakeView/View.cpp`.

* C++ `int` is a 32-bit two's-complement integer: arithmetic is done in `Int`
  and brought back into range by `wrapInt32`.
* `std::size_t` is an unsigned machine word of `SIZE_BITS` bits; a conversion
  from `int` is reduction modulo `2 ^ SIZE_BITS` (`toSizeT`).
* a `char` / `unsigned char` is a byte, `Fin 256`.
* a reference or pointer to a cell of `m_buffer` is the index of that cell.
-/

namespace FakeView

/-! ## Machine integers -/

/-- A byte: the value of one `char` or `unsigned char`. -/
abbrev Byte := Fin 256

/-- Bring a mathematical integer into the range of a 32-bit `int`
(two's-complement wrap-around). -/
def wrapInt32 (i : Int) : Int := (i + 2 ^ 31) % 2 ^ 32 - 2 ^ 31

/-- Width in bits of `std::size_t` (an x64 build). -/
def SIZE_BITS : Nat := 64

/-- The conversion `static_cast<std::size_t>(i)` of an `int`. -/
def toSizeT (i : Int) : Nat := (i % 2 ^ SIZE_BITS).toNat

/-! ## Data model -/

/-- Modelled from the spec: the cell type `Character` is declared in `Screen.h`,
which is not part of the sources; the spec gives it a display glyph and a packed
colour attribute byte, the two fields `ch` and `color` that `Screen.cpp` assigns. -/
structure Character where
  ch : Byte
  color : Byte
  deriving DecidableEq, Repr

/-- Result of `Screen::GetSize`. -/
structure Size where
  width : Int
  height : Int
  deriving DecidableEq, Repr

/-- Handle of a queued `System::Action^`; what the action does when run is given
by the environment of the loop. -/
abbrev ActionId := Nat

/-- The data members of `Screen` that `Screen.cpp` reads and writes. -/
structure Screen where
  m_buffer : List Character
  m_quit : Bool
  m_exitcode : Int
  m_invokee : List ActionId
  deriving DecidableEq, Repr

/-- Modelled from the spec: the declaration of `m_buffer` is in `Screen.h`, which
is not part of the sources; the spec fixes its length to width × height of the
150×45 grid. -/
def BUFFER_LENGTH : Nat := 150 * 45

/-- The exception thrown by `std::array::at` / `std::vector::at`. -/
inductive Exn where
  | out_of_range
  deriving DecidableEq, Repr

/-- Method `Screen::GetSize`: the fixed grid dimensions. -/
def GetSize : Size := { width := 150, height := 45 }

/-- The attribute `FOREGROUND_RED | FOREGROUND_GREEN | FOREGROUND_BLUE`
(wincon.h: 4, 2, 1). -/
def FOREGROUND_WHITE : Byte := 0x07

/-- The cell written by `Screen::ClearBuffer`. -/
def blank : Character := { ch := 32, color := FOREGROUND_WHITE }

/-- Method `Screen::ClearBuffer`: every cell becomes a space in the neutral colour. -/
def ClearBuffer (s : Screen) : Screen :=
  { s with m_buffer := s.m_buffer.map (fun _ => blank) }

/-- Method `Screen::Quit`. -/
def Quit (exitcode : Int) (s : Screen) : Screen :=
  { s with m_exitcode := exitcode, m_quit := true }

/-- Method `Screen::Invoke`: append the action to the queue (under the lock). -/
def Invoke (act : ActionId) (s : Screen) : Screen :=
  { s with m_invokee := s.m_invokee ++ [act] }

/-! ## Cell accessors -/

/-- Method `Screen::GetChar`: `m_buffer.at(y * sz.width + x)`; the `int` index is
converted to `size_t` and `at` throws when it is not below the size. The
reference returned is the index of the cell. -/
def GetChar (s : Screen) (x y : Int) : Except Exn Nat :=
  let sz := GetSize
  let pos := toSizeT (wrapInt32 (wrapInt32 (y * sz.width) + x))
  if pos ≥ s.m_buffer.length then .error Exn.out_of_range
  else .ok pos

/-- Method `Screen::TryGetChar`: `nullptr` is `none`, `&m_buffer[idx]` is `some idx`. -/
def TryGetChar (s : Screen) (x y : Int) : Option Nat :=
  let sz := GetSize
  let idx : Int := wrapInt32 (wrapInt32 (y * sz.width) + x)
  if toSizeT idx ≥ s.m_buffer.length then none
  else some (toSizeT idx)

/-- The cell a reference points at. -/
def cellAt (s : Screen) (ref : Nat) : Option Character := s.m_buffer[ref]?

/-- A freshly constructed `Screen`: the constructor runs `ClearBuffer` on the
buffer of `BUFFER_LENGTH` cells. -/
def Screen.fresh : Screen :=
  { m_buffer := List.replicate BUFFER_LENGTH blank
    m_quit := false
    m_exitcode := 0
    m_invokee := [] }

/-! ## String writers -/

/-- The glyph stored for a text byte: `(str[idx] & 0x80) ? '?' : str[idx]`. -/
def glyph (b : Byte) : Byte := if b.val &&& 0x80 ≠ 0 then 63 else b

/-- The two assignments `m_buffer[bufidx].ch = ...; m_buffer[bufidx].color = color`.
`operator[]` is unchecked: an access outside the buffer has no defined result,
which is `none` here. -/
def putCell (buf : List Character) (bufidx : Nat) (b : Byte) (color : Byte) :
    Option (List Character) :=
  if bufidx < buf.length then some (buf.set bufidx { ch := glyph b, color := color })
  else none

/-- The start index `std::size_t bufidx = x + y * scrsz.width` of both writers:
the sum is computed in `int` and converted to `size_t`. -/
def startIndex (x y : Int) : Nat :=
  toSizeT (wrapInt32 (x + wrapInt32 (y * GetSize.width)))

/-- The `for` loop of `Screen::PrintString`, as a recursion on the unread part
`str[idx..]` of the text. -/
def PrintString.loop (color : Byte) :
    List Byte → Nat → List Character → Option (List Character)
  | [], _, buf => some buf
  | b :: rest, bufidx, buf =>
    if bufidx ≥ buf.length then some buf
    else (putCell buf bufidx b color).bind (PrintString.loop color rest (bufidx + 1))

/-- Method `Screen::PrintString`; `none` would be an access outside the buffer. -/
def PrintString (x y : Int) (color : Byte) (str : List Byte) (s : Screen) : Option Screen :=
  if x < 0 ∨ y < 0 then some s
  else (PrintString.loop color str (startIndex x y) s.m_buffer).map
    (fun buf => { s with m_buffer := buf })

/-- The `for` loop of `Screen::PrintStringEx`, as a recursion on the unread part
`str[idx..]` of the text: `b` is `str[idx]` and `rest` what follows it, so the
test `idx + 2 >= str.size()` is `rest.length < 2`. `str[++idx]` moves to the next
byte `n` before the jump to `print`, which therefore writes `str[idx] = n`; the
second `++idx` reads the colour byte `k`. The two `[]` cases stand for a read
past the end of the text and cannot be reached: at least two bytes follow there. -/
def PrintStringEx.loop :
    List Byte → Byte → Nat → List Character → Option (List Character)
  | [], _, _, buf => some buf
  | b :: rest, color, bufidx, buf =>
    if bufidx ≥ buf.length then some buf
    else if b ≠ 37 then
      (putCell buf bufidx b color).bind (PrintStringEx.loop rest color (bufidx + 1))
    else if rest.length < 2 then
      (putCell buf bufidx b color).bind (PrintStringEx.loop rest color (bufidx + 1))
    else
      match rest with
      | [] => none
      | n :: tail =>
        if n ≠ 99 then
          (putCell buf bufidx n color).bind (PrintStringEx.loop tail color (bufidx + 1))
        else
          match tail with
          | [] => none
          | k :: rest2 => PrintStringEx.loop rest2 k bufidx buf

/-- Method `Screen::PrintStringEx`; `none` would be an access outside the buffer or the
text. -/
def PrintStringEx (x y : Int) (color : Byte) (str : List Byte) (s : Screen) :
    Option Screen :=
  if x < 0 ∨ y < 0 then some s
  else (PrintStringEx.loop str color (startIndex x y) s.m_buffer).map
    (fun buf => { s with m_buffer := buf })

/-- The bytes of an ASCII string literal. -/
def bytes (t : String) : List Byte := t.toList.map (fun c => Fin.ofNat c.toNat)

/-- The glyphs of the first `n` cells of the grid. -/
def glyphs (s : Screen) (n : Nat) : List Byte := (s.m_buffer.take n).map (fun c => c.ch)

/-- The cell at grid position (x,y), read through `TryGetChar`. -/
def cellXY (s : Screen) (x y : Int) : Option Character := (TryGetChar s x y).bind (cellAt s)

/-! ## The loop

`Screen::Loop` as a function on explicit state. The console keyboard is the list
of bytes typed and not yet read; what other threads and the clock do while the
loop polls is given by a script with one entry for each evaluation of the inner
`while` condition. The trace records the calls the loop makes, oldest first. -/

/-- A call made by the loop. -/
inductive Event where
  | ClearBuffer
  | Render
  | DrawBuffer
  | OnTick
  | OnKeyStroke (ch : Int)
  | Sleep
  | EnterCriticalSection
  | PopFront (act : ActionId)
  | RunAction (act : ActionId)
  | LeaveCriticalSection
  deriving DecidableEq, Repr

/-- The client `IScreenClient^ view` with own state `V`: each callback runs on the
loop thread and may call the public methods of the screen. -/
structure IScreenClient (V : Type) where
  Render : V → Screen → V × Screen
  OnTick : V → Screen → V × Screen
  OnKeyStroke : Int → V → Screen → V × Screen

/-- State of a run of `Screen::Loop`: the screen, the client, the unread keyboard
bytes, the local `prevTick` (a `DWORD`) and the trace of calls so far. -/
structure LoopState (V : Type) where
  screen : Screen
  view : V
  keys : List Byte
  prevTick : Nat
  trace : List Event

/-- What happened since the previous poll: bytes typed, actions passed to `Invoke`
by other threads, and the reading `GetTickCount()` gives now. -/
structure Poll where
  typed : List Byte
  invoked : List ActionId
  nowTick : Nat
  deriving DecidableEq, Repr

/-- The call `_kbhit()`: is a byte waiting. -/
def kbhit {V : Type} (w : LoopState V) : Bool := !w.keys.isEmpty

/-- The call `_getch()`: take the next byte; with no byte waiting the call blocks, which is
`none` here. -/
def getch {V : Type} (w : LoopState V) : Option (Int × LoopState V) :=
  match w.keys with
  | [] => none
  | b :: rest => some ((b.val : Int), { w with keys := rest })

/-- The pass `ClearBuffer(); view->Render(); DrawBuffer();`. -/
def renderPass {V : Type} (view : IScreenClient V) (w : LoopState V) : LoopState V :=
  let r := view.Render w.view (ClearBuffer w.screen)
  { w with
    view := r.1
    screen := r.2
    trace := w.trace ++ [Event.ClearBuffer, Event.Render, Event.DrawBuffer] }

/-- The key branch (lines 45-55): read one byte, merge a `0xe0` lead byte with
the byte after it, and hand the result to `OnKeyStroke`. -/
def keyBranch {V : Type} (view : IScreenClient V) (w : LoopState V) :
    Option (LoopState V) :=
  match getch w with
  | none => none
  | some (ch, w1) =>
    let merged : Option (Int × LoopState V) :=
      if ch = 0xe0 then
        match getch w1 with
        | none => none
        | some (ch2, w2) => some (Int.lor ch2 0x0100, w2)
      else some (ch, w1)
    match merged with
    | none => none
    | some (ch, w2) =>
      let r := view.OnKeyStroke ch w2.view w2.screen
      some { w2 with
        view := r.1
        screen := r.2
        trace := w2.trace ++ [Event.OnKeyStroke ch] }

/-- The action branch (lines 56-69): inside the critical section take the front
action off the queue and run it; `finally` leaves the critical section. `front()`
of an empty queue has no defined result. -/
def actionBranch {V : Type} (acts : ActionId → V → Screen → V × Screen)
    (w : LoopState V) : Option (LoopState V) :=
  match w.screen.m_invokee with
  | [] => none
  | act :: rest =>
    let r := acts act w.view { w.screen with m_invokee := rest }
    some { w with
      view := r.1
      screen := r.2
      trace := w.trace ++ [Event.EnterCriticalSection, Event.PopFront act,
        Event.RunAction act, Event.LeaveCriticalSection] }

/-- The `if` / `else if` after the idle wait (lines 45-69). -/
def dispatch {V : Type} (view : IScreenClient V)
    (acts : ActionId → V → Screen → V × Screen) (w : LoopState V) :
    Option (LoopState V) :=
  if kbhit w then keyBranch view w
  else if !w.screen.m_invokee.isEmpty then actionBranch acts w
  else some w

/-- The bytes typed and the actions invoked by other threads since the last poll
reach the keyboard and the queue. -/
def arrive {V : Type} (p : Poll) (w : LoopState V) : LoopState V :=
  { w with
    keys := w.keys ++ p.typed
    screen := p.invoked.foldl (fun s act => Invoke act s) w.screen }

/-- The idle wait (lines 26-43), one script entry for each evaluation of the
`while` condition; `DWORD` arithmetic is modulo `2 ^ 32`. The result is the state
on leaving the wait and the unused script; `none` when the script ends first. -/
def idleWait {V : Type} (view : IScreenClient V) :
    List Poll → LoopState V → Option (LoopState V × List Poll)
  | [], _ => none
  | p :: script, w0 =>
    let w := arrive p w0
    if !kbhit w && w.screen.m_invokee.isEmpty then
      if (p.nowTick + 2 ^ 32 - w.prevTick) % 2 ^ 32 ≥ 100 then
        let r := view.OnTick w.view w.screen
        let w1 : LoopState V :=
          { w with
            prevTick := (w.prevTick + 100) % 2 ^ 32
            view := r.1
            screen := r.2
            trace := w.trace ++ [Event.OnTick] }
        idleWait view script (renderPass view w1)
      else
        idleWait view script { w with trace := w.trace ++ [Event.Sleep] }
    else some (w, script)

/-- The outer `while (!m_quit)` of `Screen::Loop` and the final
`return m_exitcode`; `fuel` bounds the number of iterations. -/
def Loop.run {V : Type} (view : IScreenClient V)
    (acts : ActionId → V → Screen → V × Screen) :
    Nat → List Poll → LoopState V → Option (Int × LoopState V)
  | 0, _, _ => none
  | fuel + 1, script, w =>
    if w.screen.m_quit then some (w.screen.m_exitcode, w)
    else
      match idleWait view script (renderPass view w) with
      | none => none
      | some (w2, script2) =>
        match dispatch view acts w2 with
        | none => none
        | some w3 => Loop.run view acts fuel script2 w3

/-- Method `Screen::Loop`: `prevTick` starts at the first reading of `GetTickCount()`; each
iteration uses at least one script entry, so the script length bounds the run. -/
def Loop {V : Type} (view : IScreenClient V) (acts : ActionId → V → Screen → V × Screen)
    (startTick : Nat) (script : List Poll) (keys : List Byte) (v : V) (s : Screen) :
    Option (Int × LoopState V) :=
  Loop.run view acts (script.length + 1) script
    { screen := s, view := v, keys := keys, prevTick := startTick % 2 ^ 32, trace := [] }

/-- The body of the inner `while` (lines 28-42) for the reading `nowTick`: a tick
with `OnTick` and a render pass when 100 ms or more have passed since `prevTick`,
else `Sleep(1)`. -/
def idleStep {V : Type} (view : IScreenClient V) (nowTick : Nat) (w : LoopState V) :
    LoopState V :=
  if (nowTick + 2 ^ 32 - w.prevTick) % 2 ^ 32 ≥ 100 then
    let r := view.OnTick w.view w.screen
    renderPass view
      { w with
        prevTick := (w.prevTick + 100) % 2 ^ 32
        view := r.1
        screen := r.2
        trace := w.trace ++ [Event.OnTick] }
  else
    { w with trace := w.trace ++ [Event.Sleep] }

/-- The body of the outer `while` (lines 22-69): render pass, idle wait, dispatch. -/
def Loop.body {V : Type} (view : IScreenClient V)
    (acts : ActionId → V → Screen → V × Screen) (script : List Poll) (w : LoopState V) :
    Option (LoopState V × List Poll) :=
  match idleWait view script (renderPass view w) with
  | none => none
  | some (w2, script2) =>
    match dispatch view acts w2 with
    | none => none
    | some w3 => some (w3, script2)

/-- The first `n` passes of the outer `while`, each after the test of `m_quit`; the
passes stop early once `m_quit` is set. -/
def Loop.iterate {V : Type} (view : IScreenClient V)
    (acts : ActionId → V → Screen → V × Screen) :
    Nat → List Poll → LoopState V → Option (LoopState V × List Poll)
  | 0, script, w => some (w, script)
  | n + 1, script, w =>
    if w.screen.m_quit then some (w, script)
    else
      match Loop.body view acts script w with
      | none => none
      | some (w3, script2) => Loop.iterate view acts n script2 w3

/-! ## Properties of traces -/

/-- Whether, reading the trace from a point where the lock state is `held`, some
action is run while the queue lock is held. -/
def runsUnderLock : Bool → List Event → Bool
  | _, [] => false
  | _, Event.EnterCriticalSection :: rest => runsUnderLock true rest
  | _, Event.LeaveCriticalSection :: rest => runsUnderLock false rest
  | held, Event.RunAction _ :: rest => held || runsUnderLock held rest
  | held, _ :: rest => runsUnderLock held rest

/-- Whether the queue lock is held after the events of the trace, starting from
the lock state `held`. -/
def lockHeldAfter : Bool → List Event → Bool
  | held, [] => held
  | _, Event.EnterCriticalSection :: rest => lockHeldAfter true rest
  | _, Event.LeaveCriticalSection :: rest => lockHeldAfter false rest
  | held, _ :: rest => lockHeldAfter held rest

/-- Whether every `Render` of the trace comes right after a `ClearBuffer`; `prev`
is the event before the trace, if any. -/
def renderGuarded : Option Event → List Event → Bool
  | _, [] => true
  | prev, e :: rest =>
    (e != Event.Render || prev == some Event.ClearBuffer) && renderGuarded (some e) rest

/-- The actions run by a trace, oldest first. -/
def actionsRun : List Event → List ActionId
  | [] => []
  | Event.RunAction act :: rest => act :: actionsRun rest
  | _ :: rest => actionsRun rest

/-! ## The client `View`

`View::Render` of `src/FakeView/View.cpp`. The game model `CivModel` is outside
this repository: its terrain enters as a parameter. -/

/-- The enumerators of `CivModel::TerrainType1` named by `View::Render`; `Other`
stands for any further value, which the `switch` leaves alone. -/
inductive TerrainType1 where
  | Flatland
  | Grass
  | Swamp
  | Tundra
  | Other
  deriving DecidableEq, Repr

/-- The enumerators of `CivModel::TerrainType2` named by `View::Render`; `Other`
stands for any further value. -/
inductive TerrainType2 where
  | Mountain
  | Hill
  | Other
  deriving DecidableEq, Repr

/-- The result of `Terrain->GetPoint(x, y)`, as far as `View::Render` reads it. -/
structure TerrainPoint where
  Type1 : TerrainType1
  Type2 : TerrainType2
  deriving DecidableEq, Repr

/-- The terrain `m_game->Terrain`, as far as `View::Render` uses it. -/
structure Terrain where
  Width : Int
  Height : Int
  GetPoint : Int → Int → TerrainPoint

/-- The data members of `View` read by `View::Render`. -/
structure View where
  m_sightx : Int
  m_sighty : Int
  Terrain : Terrain

/-- The assignments to the cell `c` (lines 42-72) for a terrain point. -/
def View.paint (point : TerrainPoint) (c : Character) : Character :=
  if point.Type2 = TerrainType2.Mountain then
    { c with ch := 77, color := 0b01111000 }
  else
    let c1 : Character :=
      match point.Type1 with
      | TerrainType1.Flatland => { c with ch := 70, color := 0b00000111 }
      | TerrainType1.Grass => { c with ch := 71, color := 0b00000011 }
      | TerrainType1.Swamp => { c with ch := 83, color := 0b00000010 }
      | TerrainType1.Tundra => { c with ch := 84, color := 0b00000110 }
      | TerrainType1.Other => c
    if point.Type2 = TerrainType2.Hill then
      { c1 with color := Fin.ofNat (c1.color.val ||| 0b00001000) }
    else c1

/-- The body of the inner `for` of `View::Render` (lines 28-72) for one `dx`, `dy`.
The state is the screen and the list of the `GetChar(px, py)` calls made so far;
an exception thrown by `GetChar` ends the run. -/
def View.renderCell (v : View) (dy dx : Int) (st : Screen × List (Int × Int)) :
    Except Exn (Screen × List (Int × Int)) :=
  let scrsz := GetSize
  let sx := scrsz.width / 3
  let sy := scrsz.height / 3
  let bx := wrapInt32 (v.m_sightx - sx / 2)
  let by_ := wrapInt32 (v.m_sighty - sy / 2)
  let x := wrapInt32 (bx + dx)
  let y := wrapInt32 (by_ + dy)
  if x < 0 ∨ x ≥ v.Terrain.Width then .ok st
  else if y < 0 ∨ y ≥ v.Terrain.Height then .ok st
  else
    let point := v.Terrain.GetPoint x y
    let px := wrapInt32 (wrapInt32 (wrapInt32 (dx * 3) + 1) - Int.tmod y 2)
    let py := wrapInt32 (wrapInt32 (dy * 3) + 1)
    match GetChar st.1 px py with
    | .error e => .error e
    | .ok ref =>
      match st.1.m_buffer[ref]? with
      | none => .error Exn.out_of_range
      | some c =>
        .ok ({ st.1 with m_buffer := st.1.m_buffer.set ref (View.paint point c) },
          st.2 ++ [(px, py)])

/-- Method `View::Render`: the two nested `for` loops over `dy < sy`, `dx < sx`. The
result is the screen and the list of all `GetChar(px, py)` calls, in order. -/
def View.Render (v : View) (s : Screen) : Except Exn (Screen × List (Int × Int)) :=
  let scrsz := GetSize
  let sx := scrsz.width / 3
  let sy := scrsz.height / 3
  (List.range sy.toNat).foldlM
    (fun st dy =>
      (List.range sx.toNat).foldlM (fun st2 dx => View.renderCell v dy dx st2) st)
    (s, [])

/-- The bounds claimed for a call `GetChar(px, py)` of `View::Render`:
`0 ≤ px ≤ 148` and `1 ≤ py ≤ 43`. -/
def callInGrid (c : Int × Int) : Prop := 0 ≤ c.1 ∧ c.1 ≤ 148 ∧ 1 ≤ c.2 ∧ c.2 ≤ 43

/-- The trace of the passes that run the queued actions `as` one by one: for each
action a render pass and then the four events of the action branch. -/
def actionTrace : List ActionId → List Event
  | [] => []
  | act :: rest =>
    [Event.ClearBuffer, Event.Render, Event.DrawBuffer, Event.EnterCriticalSection,
      Event.PopFront act, Event.RunAction act, Event.LeaveCriticalSection] ++
      actionTrace rest

/-- The trace of `n` ticks in a row: each an `OnTick` and one render pass. -/
def tickBlocks : Nat → List Event
  | 0 => []
  | n + 1 =>
    [Event.OnTick, Event.ClearBuffer, Event.Render, Event.DrawBuffer] ++ tickBlocks n

/-- The trace without its `Sleep(1)` calls. -/
def withoutSleep (tr : List Event) : List Event := tr.filter (fun e => e != Event.Sleep)

/-- A poll at which nothing has arrived: no byte typed, no action invoked. -/
def quietPoll (nowTick : Nat) : Poll := { typed := [], invoked := [], nowTick := nowTick }

/-- A client for examples: it draws nothing, ignores ticks and calls `Quit(ch)` on
the key `ch`. -/
def quitOnKey : IScreenClient Unit :=
  { Render := fun v s => (v, s)
    OnTick := fun v s => (v, s)
    OnKeyStroke := fun ch v s => (v, Quit ch s) }

/-- A client for examples: it draws nothing, calls `Quit(5)` on every tick and
ignores keys. -/
def quitOnTick : IScreenClient Unit :=
  { Render := fun v s => (v, s)
    OnTick := fun v s => (v, Quit 5 s)
    OnKeyStroke := fun _ v s => (v, s) }

/-- Actions for examples: every action does nothing. -/
def idleActions : ActionId → Unit → Screen → Unit × Screen := fun _ v s => (v, s)

/-! ## Machine integer lemmas -/

theorem wrapInt32_of_inRange (i : Int) (hlo : -2 ^ 31 ≤ i) (hhi : i < 2 ^ 31) :
    wrapInt32 i = i := by
  unfold wrapInt32
  omega

theorem wrapInt32_add_wrapInt32 (a b : Int) :
    wrapInt32 (wrapInt32 a + b) = wrapInt32 (a + b) := by
  unfold wrapInt32
  omega

theorem wrapInt32_add_wrapInt32_right (a b : Int) :
    wrapInt32 (a + wrapInt32 b) = wrapInt32 (a + b) := by
  unfold wrapInt32
  omega

theorem toSizeT_of_nonneg (i : Int) (h0 : 0 ≤ i) (hhi : i < 2 ^ 31) :
    toSizeT i = i.toNat := by
  unfold toSizeT SIZE_BITS
  congr 1
  omega

theorem toSizeT_of_neg (i : Int) (hlo : -2 ^ 31 ≤ i) (hneg : i < 0) :
    2 ^ 31 < toSizeT i := by
  unfold toSizeT SIZE_BITS
  omega

/-- The index expression `y * 150 + x` of the accessors, when it fits an `int`. -/
theorem accessIndex_eq (x y : Int) (hlo : -2 ^ 31 ≤ y * 150 + x) (hhi : y * 150 + x < 2 ^ 31) :
    wrapInt32 (wrapInt32 (y * GetSize.width) + x) = y * 150 + x := by
  rw [wrapInt32_add_wrapInt32]
  exact wrapInt32_of_inRange _ hlo hhi

/-! ## Cell accessors: bounds -/

theorem TryGetChar_of_index (s : Screen) (x y : Int)
    (hlo : -2 ^ 31 ≤ y * 150 + x) (hhi : y * 150 + x < 2 ^ 31) :
    TryGetChar s x y =
      if toSizeT (y * 150 + x) ≥ s.m_buffer.length then none
      else some (toSizeT (y * 150 + x)) := by
  simp only [TryGetChar, accessIndex_eq x y hlo hhi]

theorem GetChar_of_index (s : Screen) (x y : Int)
    (hlo : -2 ^ 31 ≤ y * 150 + x) (hhi : y * 150 + x < 2 ^ 31) :
    GetChar s x y =
      if toSizeT (y * 150 + x) ≥ s.m_buffer.length then .error Exn.out_of_range
      else .ok (toSizeT (y * 150 + x)) := by
  simp only [GetChar, accessIndex_eq x y hlo hhi]

/-- The accessors on an index inside the buffer. -/
theorem accessors_inside (s : Screen) (x y : Int) (hlen : s.m_buffer.length ≤ 2 ^ 31)
    (h0 : 0 ≤ y * 150 + x) (hlt : y * 150 + x < s.m_buffer.length) :
    TryGetChar s x y = some (y * 150 + x).toNat ∧
      GetChar s x y = .ok (y * 150 + x).toNat := by
  have hhi : y * 150 + x < 2 ^ 31 := by omega
  have hlo : -2 ^ 31 ≤ y * 150 + x := by omega
  rw [TryGetChar_of_index s x y hlo hhi, GetChar_of_index s x y hlo hhi,
    toSizeT_of_nonneg _ h0 hhi]
  have : ¬ (y * 150 + x).toNat ≥ s.m_buffer.length := by omega
  simp [this]

/-- The accessors on an index outside the buffer. -/
theorem accessors_outside (s : Screen) (x y : Int) (hlen : s.m_buffer.length ≤ 2 ^ 31)
    (hlo : -2 ^ 31 ≤ y * 150 + x) (hhi : y * 150 + x < 2 ^ 31)
    (hout : y * 150 + x < 0 ∨ (s.m_buffer.length : Int) ≤ y * 150 + x) :
    TryGetChar s x y = none ∧ GetChar s x y = .error Exn.out_of_range := by
  rw [TryGetChar_of_index s x y hlo hhi, GetChar_of_index s x y hlo hhi]
  have : toSizeT (y * 150 + x) ≥ s.m_buffer.length := by
    rcases hout with hneg | hge
    · have := toSizeT_of_neg _ hlo hneg
      omega
    · rw [toSizeT_of_nonneg _ (by omega) hhi]
      omega
  simp [this]

theorem fresh_length : Screen.fresh.m_buffer.length = BUFFER_LENGTH := by
  simp [Screen.fresh]

/-- C1 (as stated, refuted): the pairs (150,0) and (-1,1) lie outside the range
`0 ≤ x < 150, 0 ≤ y < 45`, yet on a fresh screen `TryGetChar` returns a cell for
them (cell 150 and cell 149) and `GetChar` succeeds with the same cell. -/
theorem C1_out_of_range_pair_is_served :
    ¬ ((0 : Int) ≤ 150 ∧ (150 : Int) < GetSize.width ∧ (0 : Int) ≤ 0 ∧ (0 : Int) < GetSize.height) ∧
    TryGetChar Screen.fresh 150 0 = some 150 ∧
    GetChar Screen.fresh 150 0 = .ok 150 ∧
    ¬ ((0 : Int) ≤ -1 ∧ (-1 : Int) < GetSize.width ∧ (0 : Int) ≤ 1 ∧ (1 : Int) < GetSize.height) ∧
    TryGetChar Screen.fresh (-1) 1 = some 149 ∧
    GetChar Screen.fresh (-1) 1 = .ok 149 := by
  have hlen : Screen.fresh.m_buffer.length ≤ 2 ^ 31 := by
    rw [fresh_length]; decide
  have h1 := accessors_inside Screen.fresh 150 0 hlen (by decide)
    (by rw [fresh_length]; decide)
  have h2 := accessors_inside Screen.fresh (-1) 1 hlen (by decide)
    (by rw [fresh_length]; decide)
  refine ⟨by decide, h1.1, h1.2, by decide, h2.1, h2.2⟩

/-- C1 (amended): for a pair (x,y) outside the range `0 ≤ x < 150, 0 ≤ y < 45`
whose linear index `y*150 + x` fits a 32-bit int, `TryGetChar` returns absent and
`GetChar` throws when that index is outside `[0, 6750)`; when the index is
inside, both return the cell at that index. -/
theorem C1_out_of_range_by_linear_index (s : Screen) (x y : Int)
    (hlen : s.m_buffer.length = BUFFER_LENGTH)
    (_hrange : ¬ (0 ≤ x ∧ x < GetSize.width ∧ 0 ≤ y ∧ y < GetSize.height))
    (hlo : -2 ^ 31 ≤ y * 150 + x) (hhi : y * 150 + x < 2 ^ 31) :
    ((y * 150 + x < 0 ∨ 6750 ≤ y * 150 + x) →
        TryGetChar s x y = none ∧ GetChar s x y = .error Exn.out_of_range) ∧
    ((0 ≤ y * 150 + x ∧ y * 150 + x < 6750) →
        TryGetChar s x y = some (y * 150 + x).toNat ∧
        GetChar s x y = .ok (y * 150 + x).toNat) := by
  have hl : s.m_buffer.length ≤ 2 ^ 31 := by rw [hlen]; decide
  have hl2 : (s.m_buffer.length : Int) = 6750 := by rw [hlen]; rfl
  constructor
  · intro h
    exact accessors_outside s x y hl hlo hhi (by omega)
  · intro h
    exact accessors_inside s x y hl h.1 (by omega)

theorem C1_out_of_range_by_linear_index_witness :
    (TryGetChar Screen.fresh 0 45 = none ∧
      GetChar Screen.fresh 0 45 = .error Exn.out_of_range) := by
  have h := C1_out_of_range_by_linear_index Screen.fresh 0 45 fresh_length
    (by decide) (by decide) (by decide)
  exact h.1 (by decide)

/-- C2: for every (x,y) with `0 ≤ x < 150` and `0 ≤ y < 45`, `GetChar` succeeds,
`TryGetChar` returns a present cell, both are the cell at row-major linear index
`y*150 + x`, which exists in the buffer, and a different in-range pair gives a
different cell. -/
theorem C2_in_range_same_cell (s : Screen) (x y : Int)
    (hlen : s.m_buffer.length = BUFFER_LENGTH)
    (hx0 : 0 ≤ x) (hx1 : x < GetSize.width) (hy0 : 0 ≤ y) (hy1 : y < GetSize.height) :
    GetChar s x y = .ok (y * 150 + x).toNat ∧
    TryGetChar s x y = some (y * 150 + x).toNat ∧
    (cellAt s (y * 150 + x).toNat).isSome ∧
    ∀ x2 y2 : Int, 0 ≤ x2 → x2 < GetSize.width → 0 ≤ y2 → y2 < GetSize.height →
      (x2, y2) ≠ (x, y) →
      TryGetChar s x2 y2 ≠ TryGetChar s x y ∧ GetChar s x2 y2 ≠ GetChar s x y := by
  have hl : s.m_buffer.length ≤ 2 ^ 31 := by rw [hlen]; decide
  have hl2 : (s.m_buffer.length : Int) = 6750 := by rw [hlen]; rfl
  have hw : GetSize.width = 150 := rfl
  have hh : GetSize.height = 45 := rfl
  rw [hw] at hx1
  rw [hh] at hy1
  have h := accessors_inside s x y hl (by omega) (by omega)
  refine ⟨h.2, h.1, ?_, ?_⟩
  · have : (y * 150 + x).toNat < s.m_buffer.length := by omega
    simp [cellAt, this]
  · intro x2 y2 hx20 hx21 hy20 hy21 hne
    rw [hw] at hx21
    rw [hh] at hy21
    have h2 := accessors_inside s x2 y2 hl (by omega) (by omega)
    rw [h.1, h.2, h2.1, h2.2]
    have hidx : (y2 * 150 + x2).toNat ≠ (y * 150 + x).toNat := by
      intro heq
      apply hne
      have hy : y2 = y := by omega
      have hx : x2 = x := by omega
      rw [hx, hy]
    constructor
    · intro heq
      exact hidx (Option.some.inj heq)
    · intro heq
      exact hidx (Except.ok.inj heq)

theorem C2_in_range_same_cell_witness :
    GetChar Screen.fresh 149 44 = .ok 6749 ∧ TryGetChar Screen.fresh 149 44 = some 6749 := by
  have h := C2_in_range_same_cell Screen.fresh 149 44 fresh_length
    (by decide) (by decide) (by decide) (by decide)
  exact ⟨h.1, h.2.1⟩

/-- C3: for all x, y whose linear index `idx = y*150 + x` fits a 32-bit int,
`TryGetChar` reports absence exactly when `0 ≤ idx < length` fails and otherwise
returns the cell at `idx`; a negative `idx` is cast to a `size_t` value above the
length and so yields absent. -/
theorem C3_TryGetChar_absent_iff (s : Screen) (x y : Int)
    (hlen : s.m_buffer.length ≤ 2 ^ 31)
    (hlo : -2 ^ 31 ≤ y * 150 + x) (hhi : y * 150 + x < 2 ^ 31) :
    (TryGetChar s x y = none ↔ ¬ (0 ≤ y * 150 + x ∧ y * 150 + x < s.m_buffer.length)) ∧
    (0 ≤ y * 150 + x ∧ y * 150 + x < s.m_buffer.length →
      TryGetChar s x y = some (y * 150 + x).toNat ∧
      cellAt s (y * 150 + x).toNat = some (s.m_buffer.getD (y * 150 + x).toNat blank)) ∧
    (y * 150 + x < 0 →
      s.m_buffer.length ≤ toSizeT (y * 150 + x) ∧ TryGetChar s x y = none) := by
  refine ⟨⟨?_, ?_⟩, ?_, ?_⟩
  · intro hnone hin
    have h := accessors_inside s x y hlen hin.1 hin.2
    rw [hnone] at h
    exact Option.noConfusion h.1
  · intro hout
    exact (accessors_outside s x y hlen hlo hhi (by omega)).1
  · intro hin
    refine ⟨(accessors_inside s x y hlen hin.1 hin.2).1, ?_⟩
    have : (y * 150 + x).toNat < s.m_buffer.length := by omega
    simp [cellAt, List.getD, this]
  · intro hneg
    have := toSizeT_of_neg _ hlo hneg
    exact ⟨by omega, (accessors_outside s x y hlen hlo hhi (Or.inl hneg)).1⟩

theorem C3_TryGetChar_absent_iff_witness :
    (6750 : Nat) ≤ toSizeT (0 * 150 + (-1)) ∧ TryGetChar Screen.fresh (-1) 0 = none := by
  have h := C3_TryGetChar_absent_iff Screen.fresh (-1) 0
    (by rw [fresh_length]; decide) (by decide) (by decide)
  have h2 := h.2.2 (by decide)
  rw [fresh_length] at h2
  exact h2

/-! ## The plain writer -/

set_option maxRecDepth 100000 in
theorem glyph_eq (b : Byte) : glyph b = if 128 ≤ b.val then 63 else b := by
  revert b
  decide

theorem putCell_of_lt (buf : List Character) (i : Nat) (b color : Byte) (h : i < buf.length) :
    putCell buf i b color = some (buf.set i { ch := glyph b, color := color }) := by
  simp [putCell, h]

theorem PrintString_loop_of_ge (color : Byte) (str : List Byte) (i : Nat)
    (buf : List Character) (h : buf.length ≤ i) :
    PrintString.loop color str i buf = some buf := by
  cases str with
  | nil => rfl
  | cons b rest => simp [PrintString.loop, h]

/-- What the loop of `PrintString` leaves in the buffer: it always completes, keeps
the length, and cell `j` holds the glyph of `str[j - i]` where that exists and
`j` is inside the buffer, and its old content elsewhere. -/
theorem PrintString_loop_spec (color : Byte) (str : List Byte) :
    ∀ (i : Nat) (buf : List Character),
      ∃ out, PrintString.loop color str i buf = some out ∧ out.length = buf.length ∧
        ∀ j, out[j]? =
          if i ≤ j ∧ j < buf.length ∧ j - i < str.length then
            (str[j - i]?).map (fun b => { ch := glyph b, color := color })
          else buf[j]? := by
  induction str with
  | nil =>
    intro i buf
    exact ⟨buf, rfl, rfl, by intro j; simp⟩
  | cons b rest ih =>
    intro i buf
    by_cases hi : buf.length ≤ i
    · refine ⟨buf, PrintString_loop_of_ge color _ i buf hi, rfl, ?_⟩
      intro j
      have : ¬ (i ≤ j ∧ j < buf.length ∧ j - i < (b :: rest).length) := by omega
      rw [if_neg this]
    · have hi2 : i < buf.length := by omega
      obtain ⟨out, hout, hlen, hget⟩ :=
        ih (i + 1) (buf.set i { ch := glyph b, color := color })
      refine ⟨out, ?_, ?_, ?_⟩
      · simp [PrintString.loop, hi, putCell_of_lt buf i b color hi2, hout]
      · rw [hlen, List.length_set]
      · intro j
        rw [hget j, List.length_set]
        by_cases hj : i + 1 ≤ j
        · by_cases hj2 : j < buf.length ∧ j - (i + 1) < rest.length
          · have c1 : i + 1 ≤ j ∧ j < buf.length ∧ j - (i + 1) < rest.length := ⟨hj, hj2⟩
            have c2 : i ≤ j ∧ j < buf.length ∧ j - i < (b :: rest).length := by
              simp only [List.length_cons]; omega
            rw [if_pos c1, if_pos c2]
            have : j - i = (j - (i + 1)) + 1 := by omega
            rw [this, List.getElem?_cons_succ]
          · have c1 : ¬ (i + 1 ≤ j ∧ j < buf.length ∧ j - (i + 1) < rest.length) := by
              intro h; exact hj2 h.2
            have c2 : ¬ (i ≤ j ∧ j < buf.length ∧ j - i < (b :: rest).length) := by
              simp only [List.length_cons]; omega
            rw [if_neg c1, if_neg c2, List.getElem?_set]
            have : ¬ i = j := by omega
            simp [this]
        · have c1 : ¬ (i + 1 ≤ j ∧ j < buf.length ∧ j - (i + 1) < rest.length) := by omega
          rw [if_neg c1, List.getElem?_set]
          by_cases hij : i = j
          · subst hij
            have c2 : i ≤ i ∧ i < buf.length ∧ i - i < (b :: rest).length := by
              simp only [List.length_cons]; omega
            rw [if_pos c2]
            simp [hi2]
          · have c2 : ¬ (i ≤ j ∧ j < buf.length ∧ j - i < (b :: rest).length) := by omega
            rw [if_neg c2]
            simp [hij]

/-- The start index of the writers, when `x + y * 150` fits an `int`. -/
theorem startIndex_eq (x y : Int) (h0 : 0 ≤ x + y * 150) (hhi : x + y * 150 < 2 ^ 31) :
    startIndex x y = (x + y * 150).toNat := by
  unfold startIndex
  rw [wrapInt32_add_wrapInt32_right]
  have hw : GetSize.width = 150 := rfl
  rw [hw, wrapInt32_of_inRange _ (by omega) hhi, toSizeT_of_nonneg _ h0 hhi]

theorem PrintString_eq (x y : Int) (color : Byte) (str : List Byte) (s : Screen)
    (hx : 0 ≤ x) (hy : 0 ≤ y) :
    PrintString x y color str s =
      (PrintString.loop color str (startIndex x y) s.m_buffer).map
        (fun buf => { s with m_buffer := buf }) := by
  have : ¬ (x < 0 ∨ y < 0) := by omega
  simp [PrintString, this]

theorem bytes_AB : bytes "AB" = [65, 66] := by decide

/-- C4: for x, y ≥ 0 `PrintString` completes and each cell at linear index
`s + i` (`s = x + y*150`, `i < len(text)`, `s + i` below the buffer length) then
holds colour `color` and glyph `g(text[i])`, where `g(b)` is `'?'` (63) when the
high bit of `b` is set and `b` otherwise. The index is linear:
`PrintString(149,0,color,"AB")` puts 'A' in cell (149,0) and 'B' in cell (0,1),
`PrintString(0,0,color,"AB")` puts 'A' in (0,0) and 'B' in (1,0). -/
theorem C4_PrintString_writes_cells (s : Screen) (x y : Int) (color : Byte)
    (text : List Byte) (hlen : s.m_buffer.length = BUFFER_LENGTH)
    (hx : 0 ≤ x) (hy : 0 ≤ y) :
    (∃ out, PrintString x y color text s = some out ∧
      ∀ (i : Nat) (hi : i < text.length), x + y * 150 + (i : Int) < (BUFFER_LENGTH : Int) →
        out.m_buffer[(x + y * 150).toNat + i]? =
          some { ch := (if 128 ≤ (text[i]).val then 63 else text[i]), color := color }) ∧
    (∃ out, PrintString 149 0 color (bytes "AB") s = some out ∧
      cellXY out 149 0 = some { ch := 65, color := color } ∧
      cellXY out 0 1 = some { ch := 66, color := color }) ∧
    (∃ out, PrintString 0 0 color (bytes "AB") s = some out ∧
      cellXY out 0 0 = some { ch := 65, color := color } ∧
      cellXY out 1 0 = some { ch := 66, color := color }) := by
  have hB : (BUFFER_LENGTH : Int) = 6750 := rfl
  have hBn : BUFFER_LENGTH = 6750 := rfl
  -- the general statement, for any non-negative start
  have gen : ∀ (x y : Int) (text : List Byte), 0 ≤ x → 0 ≤ y →
      ∃ out, PrintString x y color text s = some out ∧
        out.m_buffer.length = BUFFER_LENGTH ∧
        ∀ (i : Nat) (hi : i < text.length), x + y * 150 + (i : Int) < (BUFFER_LENGTH : Int) →
          out.m_buffer[(x + y * 150).toNat + i]? =
            some { ch := glyph text[i], color := color } := by
    intro x y text hx hy
    obtain ⟨buf, hbuf, hl, hget⟩ := PrintString_loop_spec color text (startIndex x y) s.m_buffer
    refine ⟨{ s with m_buffer := buf }, ?_, ?_, ?_⟩
    · rw [PrintString_eq x y color text s hx hy, hbuf]
      rfl
    · show buf.length = BUFFER_LENGTH
      rw [hl, hlen]
    · intro i hi hlt
      show buf[(x + y * 150).toNat + i]? = _
      have hs : startIndex x y = (x + y * 150).toNat :=
        startIndex_eq x y (by omega) (by omega)
      rw [hget, hs, hlen]
      have c : (x + y * 150).toNat ≤ (x + y * 150).toNat + i ∧
          (x + y * 150).toNat + i < BUFFER_LENGTH ∧
          (x + y * 150).toNat + i - (x + y * 150).toNat < text.length := by
        refine ⟨by omega, by omega, by omega⟩
      rw [if_pos c]
      have : (x + y * 150).toNat + i - (x + y * 150).toNat = i := by omega
      rw [this, List.getElem?_eq_getElem hi]
      rfl
  refine ⟨?_, ?_, ?_⟩
  · obtain ⟨out, h1, _, h3⟩ := gen x y text hx hy
    refine ⟨out, h1, ?_⟩
    intro i hi hlt
    rw [h3 i hi hlt, glyph_eq]
  · obtain ⟨out, h1, h2, h3⟩ := gen 149 0 (bytes "AB") (by decide) (by decide)
    refine ⟨out, h1, ?_, ?_⟩
    · have ha := (accessors_inside out 149 0 (by rw [h2]; decide) (by decide)
        (by rw [h2]; decide)).1
      have hc := h3 0 (by decide) (by decide)
      simp only [cellXY, ha, cellAt, Option.bind_some]
      simpa [bytes_AB, glyph] using hc
    · have ha := (accessors_inside out 0 1 (by rw [h2]; decide) (by decide)
        (by rw [h2]; decide)).1
      have hc := h3 1 (by decide) (by decide)
      simp only [cellXY, ha, cellAt, Option.bind_some]
      simpa [bytes_AB, glyph] using hc
  · obtain ⟨out, h1, h2, h3⟩ := gen 0 0 (bytes "AB") (by decide) (by decide)
    refine ⟨out, h1, ?_, ?_⟩
    · have ha := (accessors_inside out 0 0 (by rw [h2]; decide) (by decide)
        (by rw [h2]; decide)).1
      have hc := h3 0 (by decide) (by decide)
      simp only [cellXY, ha, cellAt, Option.bind_some]
      simpa [bytes_AB, glyph] using hc
    · have ha := (accessors_inside out 1 0 (by rw [h2]; decide) (by decide)
        (by rw [h2]; decide)).1
      have hc := h3 1 (by decide) (by decide)
      simp only [cellXY, ha, cellAt, Option.bind_some]
      simpa [bytes_AB, glyph] using hc

theorem C4_PrintString_writes_cells_witness :
    ∃ out, PrintString 149 0 7 (bytes "AB") Screen.fresh = some out ∧
      cellXY out 149 0 = some { ch := 65, color := 7 } ∧
      cellXY out 0 1 = some { ch := 66, color := 7 } :=
  (C4_PrintString_writes_cells Screen.fresh 149 0 7 (bytes "AB") fresh_length
    (by decide) (by decide)).2.1

/-- C5: for x, y ≥ 0 `PrintString` never fails (it completes without an access
outside the buffer), leaves the buffer length unchanged and changes no cell whose
linear index lies outside `[s, min(s + len(text), length))`, where `s` is the start
index computed from `x + y*150` (equal to that integer whenever it fits a 32-bit
int); when `s + len(text)` exceeds the length the cells from `s` to the last one
are written and the rest of the text is dropped, and when `s ≥ length` nothing
changes at all. -/
theorem C5_PrintString_frame (s : Screen) (x y : Int) (color : Byte) (text : List Byte)
    (hx : 0 ≤ x) (hy : 0 ≤ y) :
    (x + y * 150 < 2 ^ 31 → (startIndex x y : Int) = x + y * 150) ∧
    ∃ out, PrintString x y color text s = some out ∧
      out.m_buffer.length = s.m_buffer.length ∧
      (∀ j, ¬ (startIndex x y ≤ j ∧
            j < min (startIndex x y + text.length) s.m_buffer.length) →
          out.m_buffer[j]? = s.m_buffer[j]?) ∧
      (s.m_buffer.length < startIndex x y + text.length →
        ∀ j, startIndex x y ≤ j → j < s.m_buffer.length →
          out.m_buffer[j]? =
            (text[j - startIndex x y]?).map (fun b => { ch := glyph b, color := color })) ∧
      (s.m_buffer.length ≤ startIndex x y → out = s) := by
  constructor
  · intro hhi
    rw [startIndex_eq x y (by omega) hhi]
    omega
  · obtain ⟨buf, hbuf, hl, hget⟩ := PrintString_loop_spec color text (startIndex x y) s.m_buffer
    refine ⟨{ s with m_buffer := buf }, ?_, hl, ?_, ?_, ?_⟩
    · rw [PrintString_eq x y color text s hx hy, hbuf]
      rfl
    · intro j hj
      show buf[j]? = _
      rw [hget]
      have : ¬ (startIndex x y ≤ j ∧ j < s.m_buffer.length ∧
          j - startIndex x y < text.length) := by omega
      rw [if_neg this]
    · intro hover j hj1 hj2
      show buf[j]? = _
      rw [hget]
      have : startIndex x y ≤ j ∧ j < s.m_buffer.length ∧
          j - startIndex x y < text.length := by omega
      rw [if_pos this]
    · intro hge
      have hb : buf = s.m_buffer := by
        have := PrintString_loop_of_ge color text (startIndex x y) s.m_buffer hge
        rw [this] at hbuf
        exact (Option.some.inj hbuf).symm
      rw [hb]

theorem C5_PrintString_frame_witness :
    ∃ out, PrintString 148 44 7 (bytes "ABCD") Screen.fresh = some out ∧
      out.m_buffer.length = Screen.fresh.m_buffer.length :=
  have h := (C5_PrintString_frame Screen.fresh 148 44 7 (bytes "ABCD")
    (by decide) (by decide)).2
  h.elim (fun out ho => ⟨out, ho.1, ho.2.1⟩)

/-- C6: when `x < 0` or `y < 0`, `PrintString` and `PrintStringEx` return at once
and leave the screen, hence every cell of the buffer, unchanged, whatever the
linear index `x + y*150` would be. -/
theorem C6_negative_start_is_noop (s : Screen) (x y : Int) (color : Byte)
    (text : List Byte) (h : x < 0 ∨ y < 0) :
    PrintString x y color text s = some s ∧ PrintStringEx x y color text s = some s := by
  simp [PrintString, PrintStringEx, h]

theorem C6_negative_start_is_noop_witness :
    PrintString (-1) 1 7 (bytes "AB") Screen.fresh = some Screen.fresh ∧
      PrintStringEx (-1) 1 7 (bytes "AB") Screen.fresh = some Screen.fresh :=
  C6_negative_start_is_noop Screen.fresh (-1) 1 7 (bytes "AB") (by decide)

/-! ## The formatted writer -/

theorem PrintString_loop_nil (color : Byte) (i : Nat) :
    PrintString.loop color [] i = some := by
  funext buf
  rfl

theorem PrintStringEx_loop_nil (color : Byte) (i : Nat) :
    PrintStringEx.loop [] color i = some := by
  funext buf
  rfl

theorem PrintStringEx_loop_of_ge (color : Byte) (str : List Byte) (i : Nat)
    (buf : List Character) (h : buf.length ≤ i) :
    PrintStringEx.loop str color i buf = some buf := by
  cases str with
  | nil => rfl
  | cons b rest =>
    unfold PrintStringEx.loop
    simp [h]

theorem PrintString_loop_cons_of_lt (color b : Byte) (rest : List Byte) (i : Nat)
    (buf : List Character) (h : i < buf.length) :
    PrintString.loop color (b :: rest) i buf =
      PrintString.loop color rest (i + 1) (buf.set i { ch := glyph b, color := color }) := by
  have h2 : ¬ buf.length ≤ i := by omega
  simp [PrintString.loop, putCell, h, h2]

theorem PrintStringEx_loop_cons_of_lt (color b : Byte) (rest : List Byte) (i : Nat)
    (buf : List Character) (h : i < buf.length) (hb : b ≠ 37) :
    PrintStringEx.loop (b :: rest) color i buf =
      PrintStringEx.loop rest color (i + 1) (buf.set i { ch := glyph b, color := color }) := by
  have h2 : ¬ buf.length ≤ i := by omega
  conv_lhs => unfold PrintStringEx.loop
  simp [putCell, h, h2, hb]

theorem PrintString_loop_length (color : Byte) (str : List Byte) (i : Nat)
    (buf out : List Character) (h : PrintString.loop color str i buf = some out) :
    out.length = buf.length := by
  obtain ⟨o, ho, hl, _⟩ := PrintString_loop_spec color str i buf
  rw [ho] at h
  cases h
  exact hl

/-- The plain loop on a concatenated text: the loop on the first part, then the
loop on the second part from the index after it. -/
theorem PrintString_loop_append (color : Byte) (p t : List Byte) :
    ∀ (i : Nat) (buf : List Character),
      PrintString.loop color (p ++ t) i buf =
        (PrintString.loop color p i buf).bind (PrintString.loop color t (i + p.length)) := by
  induction p with
  | nil => intro i buf; simp [PrintString.loop]
  | cons b rest ih =>
    intro i buf
    by_cases hi : buf.length ≤ i
    · rw [List.cons_append, PrintString_loop_of_ge color _ i buf hi,
        PrintString_loop_of_ge color _ i buf hi, Option.some_bind,
        PrintString_loop_of_ge color t _ buf (by omega)]
    · have hi2 : i < buf.length := by omega
      rw [List.cons_append, PrintString_loop_cons_of_lt color b _ i buf hi2,
        PrintString_loop_cons_of_lt color b _ i buf hi2, ih (i + 1), List.length_cons]
      have : i + 1 + rest.length = i + (rest.length + 1) := by omega
      rw [this]

/-- The formatted loop on a text that starts with a part free of `'%'`: that part
is written as by the plain loop, then the formatted loop goes on with the rest. -/
theorem PrintStringEx_loop_append (color : Byte) (p t : List Byte) (hp : (37 : Byte) ∉ p) :
    ∀ (i : Nat) (buf : List Character),
      PrintStringEx.loop (p ++ t) color i buf =
        (PrintString.loop color p i buf).bind (PrintStringEx.loop t color (i + p.length)) := by
  induction p with
  | nil => intro i buf; simp [PrintString.loop]
  | cons b rest ih =>
    intro i buf
    have hb : b ≠ 37 := by
      intro h
      apply hp
      rw [h]
      exact List.mem_cons_self _ _
    have hrest : (37 : Byte) ∉ rest := fun h => hp (List.mem_cons_of_mem _ h)
    by_cases hi : buf.length ≤ i
    · rw [List.cons_append, PrintStringEx_loop_of_ge color _ i buf hi,
        PrintString_loop_of_ge color _ i buf hi, Option.some_bind,
        PrintStringEx_loop_of_ge color t _ buf (by omega)]
    · have hi2 : i < buf.length := by omega
      rw [List.cons_append, PrintStringEx_loop_cons_of_lt color b _ i buf hi2 hb,
        PrintString_loop_cons_of_lt color b _ i buf hi2, ih hrest (i + 1), List.length_cons]
      have : i + 1 + rest.length = i + (rest.length + 1) := by omega
      rw [this]

/-- On a text free of `'%'` the two loops agree. -/
theorem PrintStringEx_loop_eq_plain (color : Byte) (p : List Byte) (hp : (37 : Byte) ∉ p)
    (i : Nat) (buf : List Character) :
    PrintStringEx.loop p color i buf = PrintString.loop color p i buf := by
  have h := PrintStringEx_loop_append color p [] hp i buf
  rw [List.append_nil, PrintStringEx_loop_nil] at h
  rw [h]
  simp

/-- A complete escape `%c<k>` writes nothing and switches the colour to `k`. -/
theorem PrintStringEx_loop_escape (c0 k : Byte) (rest : List Byte) (i : Nat)
    (buf : List Character) :
    PrintStringEx.loop (37 :: 99 :: k :: rest) c0 i buf =
      PrintStringEx.loop rest k i buf := by
  by_cases hi : buf.length ≤ i
  · rw [PrintStringEx_loop_of_ge c0 _ i buf hi, PrintStringEx_loop_of_ge k _ i buf hi]
  · simp [PrintStringEx.loop, hi]

/-- A `'%'` followed by a byte `n` other than `'c'` and at least one more byte:
the cell receives `n`, the loop goes on after `n`, and the `'%'` is written
nowhere. -/
theorem PrintStringEx_loop_percent_other (color n k : Byte) (rest : List Byte) (hn : n ≠ 99)
    (i : Nat) (buf : List Character) (hi : i < buf.length) :
    PrintStringEx.loop (37 :: n :: k :: rest) color i buf =
      PrintStringEx.loop (k :: rest) color (i + 1)
        (buf.set i { ch := glyph n, color := color }) := by
  have h2 : ¬ buf.length ≤ i := by omega
  simp [PrintStringEx.loop, putCell, hi, h2, hn]

/-- A `'%'` with fewer than two bytes after it is written like any other byte. -/
theorem PrintStringEx_loop_percent_short (color : Byte) (rest : List Byte)
    (hrest : rest.length < 2) (i : Nat) (buf : List Character) (hi : i < buf.length) :
    PrintStringEx.loop (37 :: rest) color i buf =
      PrintStringEx.loop rest color (i + 1)
        (buf.set i { ch := glyph 37, color := color }) := by
  have h2 : ¬ buf.length ≤ i := by omega
  conv_lhs => unfold PrintStringEx.loop
  simp [putCell, hi, h2, hrest]

/-- A malformed escape inside a text otherwise free of `'%'`: the result is that
of the plain writer on the text without the `'%'`. -/
theorem PrintStringEx_loop_drops_percent (color n k : Byte) (pre rest : List Byte)
    (hpre : (37 : Byte) ∉ pre) (hn : n ≠ 99) (hrest : (37 : Byte) ∉ k :: rest)
    (i : Nat) (buf : List Character) :
    PrintStringEx.loop (pre ++ 37 :: n :: k :: rest) color i buf =
      PrintString.loop color (pre ++ n :: k :: rest) i buf := by
  rw [PrintStringEx_loop_append color pre _ hpre, PrintString_loop_append]
  congr 1
  funext out
  by_cases hi : out.length ≤ i + pre.length
  · rw [PrintStringEx_loop_of_ge color _ _ out hi, PrintString_loop_of_ge color _ _ out hi]
  · have hi2 : i + pre.length < out.length := by omega
    rw [PrintStringEx_loop_percent_other color n k rest hn _ out hi2,
      PrintString_loop_cons_of_lt color n _ _ out hi2,
      PrintStringEx_loop_eq_plain color _ hrest]

/-- The writer `PrintString` from a non-negative start: it completes, touches only the
buffer, keeps its length, and the cells are those of `PrintString_loop_spec`. -/
theorem PrintString_spec (s : Screen) (x y : Int) (color : Byte) (text : List Byte)
    (hx : 0 ≤ x) (hy : 0 ≤ y) :
    ∃ out, PrintString x y color text s = some out ∧
      out.m_buffer.length = s.m_buffer.length ∧
      ∀ j, out.m_buffer[j]? =
        if startIndex x y ≤ j ∧ j < s.m_buffer.length ∧ j - startIndex x y < text.length then
          (text[j - startIndex x y]?).map (fun b => { ch := glyph b, color := color })
        else s.m_buffer[j]? := by
  obtain ⟨buf, hbuf, hl, hget⟩ := PrintString_loop_spec color text (startIndex x y) s.m_buffer
  refine ⟨{ s with m_buffer := buf }, ?_, hl, hget⟩
  rw [PrintString_eq x y color text s hx hy, hbuf]
  rfl

/-- Reading the cell at an in-range grid position. -/
theorem cellXY_eq (s : Screen) (x y : Int) (hlen : s.m_buffer.length = BUFFER_LENGTH)
    (h0 : 0 ≤ y * 150 + x) (h1 : y * 150 + x < 6750) :
    cellXY s x y = s.m_buffer[(y * 150 + x).toNat]? := by
  have ha := (accessors_inside s x y (by rw [hlen]; decide) h0
    (by rw [hlen]; exact h1)).1
  simp only [cellXY, ha, cellAt, Option.some_bind]

theorem startIndex_zero : startIndex 0 0 = 0 := by decide

theorem bytes_50_percent_off : bytes "50%off" = [53, 48] ++ 37 :: 111 :: 102 :: [102] := by
  decide

theorem bytes_50off : bytes "50off" = [53, 48] ++ 111 :: 102 :: [102] := by decide

/-- C8 (the code at the failing input): `PrintStringEx(0,0,7,"50%off")` on a fresh
screen gives exactly what `PrintString(0,0,7,"50off")` gives: cell (2,0) holds
'o' and not '%', only five cells are written and cell (5,0) is still blank. -/
theorem C8_malformed_escape_drops_percent :
    PrintStringEx 0 0 7 (bytes "50%off") Screen.fresh =
      PrintString 0 0 7 (bytes "50off") Screen.fresh ∧
    ∃ out, PrintStringEx 0 0 7 (bytes "50%off") Screen.fresh = some out ∧
      cellXY out 0 0 = some { ch := 53, color := 7 } ∧
      cellXY out 1 0 = some { ch := 48, color := 7 } ∧
      cellXY out 2 0 = some { ch := 111, color := 7 } ∧
      cellXY out 3 0 = some { ch := 102, color := 7 } ∧
      cellXY out 4 0 = some { ch := 102, color := 7 } ∧
      cellXY out 5 0 = some blank := by
  have heq : PrintStringEx 0 0 7 (bytes "50%off") Screen.fresh =
      PrintString 0 0 7 (bytes "50off") Screen.fresh := by
    have h : ¬ ((0 : Int) < 0 ∨ (0 : Int) < 0) := by decide
    simp only [PrintStringEx, PrintString, h, if_false]
    rw [bytes_50_percent_off, bytes_50off,
      PrintStringEx_loop_drops_percent 7 111 102 [53, 48] [102] (by decide) (by decide)
        (by decide)]
  refine ⟨heq, ?_⟩
  obtain ⟨out, h1, h2, h3⟩ :=
    PrintString_spec Screen.fresh 0 0 7 (bytes "50off") (by decide) (by decide)
  rw [fresh_length] at h2
  have hcell : ∀ j : Nat, j < 6 →
      out.m_buffer[j]? =
        if j < 5 then ((bytes "50off")[j]?).map (fun b => { ch := glyph b, color := 7 })
        else some blank := by
    intro j hj
    rw [h3 j, startIndex_zero, fresh_length]
    have hB : BUFFER_LENGTH = 6750 := rfl
    by_cases h5 : j < 5
    · have c : 0 ≤ j ∧ j < BUFFER_LENGTH ∧ j - 0 < (bytes "50off").length := by
        rw [bytes_50off]
        refine ⟨by omega, by omega, ?_⟩
        simp only [List.length_append, List.length_cons, List.length_nil]
        omega
      rw [if_pos c, if_pos h5]
      rfl
    · have c : ¬ (0 ≤ j ∧ j < BUFFER_LENGTH ∧ j - 0 < (bytes "50off").length) := by
        rw [bytes_50off]
        simp only [List.length_append, List.length_cons, List.length_nil]
        omega
      rw [if_neg c, if_neg h5]
      simp only [Screen.fresh]
      rw [List.getElem?_replicate]
      have : j < BUFFER_LENGTH := by omega
      simp [this]
  refine ⟨out, by rw [heq, h1], ?_, ?_, ?_, ?_, ?_, ?_⟩
  · rw [cellXY_eq out 0 0 h2 (by decide) (by decide)]
    exact (hcell 0 (by decide)).trans (by decide)
  · rw [cellXY_eq out 1 0 h2 (by decide) (by decide)]
    exact (hcell 1 (by decide)).trans (by decide)
  · rw [cellXY_eq out 2 0 h2 (by decide) (by decide)]
    exact (hcell 2 (by decide)).trans (by decide)
  · rw [cellXY_eq out 3 0 h2 (by decide) (by decide)]
    exact (hcell 3 (by decide)).trans (by decide)
  · rw [cellXY_eq out 4 0 h2 (by decide) (by decide)]
    exact (hcell 4 (by decide)).trans (by decide)
  · rw [cellXY_eq out 5 0 h2 (by decide) (by decide)]
    exact (hcell 5 (by decide)).trans (by decide)

theorem PrintStringEx_eq (x y : Int) (color : Byte) (str : List Byte) (s : Screen)
    (hx : 0 ≤ x) (hy : 0 ≤ y) :
    PrintStringEx x y color str s =
      (PrintStringEx.loop str color (startIndex x y) s.m_buffer).map
        (fun buf => { s with m_buffer := buf }) := by
  have : ¬ (x < 0 ∨ y < 0) := by omega
  simp [PrintStringEx, this]

/-- The formatted loop on `pre ++ "%c" ++ [c1] ++ post` with `pre`, `post` free of
`'%'`. -/
theorem PrintStringEx_loop_colour_switch (c0 c1 : Byte) (pre post : List Byte)
    (hpre : (37 : Byte) ∉ pre) (hpost : (37 : Byte) ∉ post) (i : Nat)
    (buf : List Character) :
    PrintStringEx.loop (pre ++ 37 :: 99 :: c1 :: post) c0 i buf =
      (PrintString.loop c0 pre i buf).bind (PrintString.loop c1 post (i + pre.length)) := by
  rw [PrintStringEx_loop_append c0 pre _ hpre]
  congr 1
  funext out
  rw [PrintStringEx_loop_escape, PrintStringEx_loop_eq_plain c1 post hpost]

theorem bytes_x_escape (c1 : Byte) :
    bytes "x%c" ++ [c1] ++ bytes "y" = [120] ++ 37 :: 99 :: c1 :: [121] := by
  have h1 : bytes "x%c" = [120, 37, 99] := by decide
  have h2 : bytes "y" = [121] := by decide
  rw [h1, h2]
  rfl

/-- C7: for a start (x,y) ≥ (0,0), colours `c0`, `c1` (any bytes) and texts `pre`,
`post` free of `'%'`, `PrintStringEx(x,y,c0, pre ++ "%c" ++ [c1] ++ post)` gives the
buffer of `PrintString(x,y,c0,pre)` followed by the plain write of `post` in colour
`c1` from linear index `s + len(pre)`, `s` the start index of (x,y): the escape
writes no glyph and takes no cell. Instance: `"x%c" ++ [c1] ++ "y"` at (0,0) sets
cell (0,0) to 'x' in `c0` and cell (1,0) to 'y' in `c1`. -/
theorem C7_escape_switches_colour (s : Screen) (x y : Int) (c0 c1 : Byte)
    (pre post : List Byte) (hx : 0 ≤ x) (hy : 0 ≤ y)
    (hpre : (37 : Byte) ∉ pre) (hpost : (37 : Byte) ∉ post) :
    PrintStringEx x y c0 (pre ++ bytes "%c" ++ [c1] ++ post) s =
      (PrintString x y c0 pre s).bind (fun s1 =>
        (PrintString.loop c1 post (startIndex x y + pre.length) s1.m_buffer).map
          (fun buf => { s1 with m_buffer := buf })) ∧
    (s.m_buffer.length = BUFFER_LENGTH →
      ∃ out, PrintStringEx 0 0 c0 (bytes "x%c" ++ [c1] ++ bytes "y") s = some out ∧
        cellXY out 0 0 = some { ch := 120, color := c0 } ∧
        cellXY out 1 0 = some { ch := 121, color := c1 }) := by
  have hpc : bytes "%c" = [37, 99] := by decide
  have gen : ∀ (pre post : List Byte), (37 : Byte) ∉ pre → (37 : Byte) ∉ post →
      ∀ (x y : Int), 0 ≤ x → 0 ≤ y →
      PrintStringEx x y c0 (pre ++ 37 :: 99 :: c1 :: post) s =
        (PrintString x y c0 pre s).bind (fun s1 =>
          (PrintString.loop c1 post (startIndex x y + pre.length) s1.m_buffer).map
            (fun buf => { s1 with m_buffer := buf })) := by
    intro pre post hpre hpost x y hx hy
    rw [PrintStringEx_eq x y c0 _ s hx hy, PrintString_eq x y c0 pre s hx hy,
      PrintStringEx_loop_colour_switch c0 c1 pre post hpre hpost]
    cases PrintString.loop c0 pre (startIndex x y) s.m_buffer with
    | none => rfl
    | some b1 => rfl
  constructor
  · have := gen pre post hpre hpost x y hx hy
    rw [hpc]
    simpa [List.append_assoc] using this
  · intro hlen
    have hB : BUFFER_LENGTH = 6750 := rfl
    have h := gen [120] [121] (by decide) (by decide) 0 0 (by decide) (by decide)
    rw [bytes_x_escape, h, PrintString_eq 0 0 c0 [120] s (by decide) (by decide),
      startIndex_zero,
      PrintString_loop_cons_of_lt c0 120 [] 0 s.m_buffer (by omega)]
    simp only [PrintString_loop_nil, Option.map_some', Option.some_bind, List.length_cons,
      List.length_nil]
    rw [PrintString_loop_cons_of_lt c1 121 [] _ _ (by simp; omega)]
    simp only [PrintString_loop_nil, Option.map_some']
    refine ⟨_, rfl, ?_, ?_⟩
    · rw [cellXY_eq _ 0 0 (by simp [hlen]) (by decide) (by decide)]
      have : (0 : Nat) < s.m_buffer.length := by omega
      have g : glyph 120 = 120 := by decide
      simp [List.getElem?_set, this, g]
    · rw [cellXY_eq _ 1 0 (by simp [hlen]) (by decide) (by decide)]
      have : (1 : Nat) < s.m_buffer.length := by omega
      have g : glyph 121 = 121 := by decide
      simp [List.getElem?_set, this, g]

theorem C7_escape_switches_colour_witness :
    ∃ out, PrintStringEx 0 0 7 (bytes "x%c" ++ [200] ++ bytes "y") Screen.fresh = some out ∧
      cellXY out 0 0 = some { ch := 120, color := 7 } ∧
      cellXY out 1 0 = some { ch := 121, color := 200 } :=
  (C7_escape_switches_colour Screen.fresh 0 0 7 200 (bytes "x") (bytes "y")
    (by decide) (by decide) (by decide) (by decide)).2 fresh_length

/-- C9: for `p` free of `'%'`, x, y ≥ 0 and each of the tails `"%"`, `"%c"` and
`"%"` followed by one arbitrary byte `b`, `PrintStringEx(x,y,color, p ++ tail)`
gives the same screen as `PrintString(x,y,color, p ++ tail)`: every byte is written
literally in the unchanged colour. In particular `"100%"` at (0,0) writes the four
glyphs '1', '0', '0', '%'. -/
theorem C9_truncated_escape_is_literal (s : Screen) (x y : Int) (color b : Byte)
    (p : List Byte) (hx : 0 ≤ x) (hy : 0 ≤ y) (hp : (37 : Byte) ∉ p) :
    PrintStringEx x y color (p ++ bytes "%") s = PrintString x y color (p ++ bytes "%") s ∧
    PrintStringEx x y color (p ++ bytes "%c") s = PrintString x y color (p ++ bytes "%c") s ∧
    PrintStringEx x y color (p ++ [37, b]) s = PrintString x y color (p ++ [37, b]) s ∧
    (s.m_buffer.length = BUFFER_LENGTH →
      ∃ out, PrintStringEx 0 0 color (bytes "100%") s = some out ∧
        cellXY out 0 0 = some { ch := 49, color := color } ∧
        cellXY out 1 0 = some { ch := 48, color := color } ∧
        cellXY out 2 0 = some { ch := 48, color := color } ∧
        cellXY out 3 0 = some { ch := 37, color := color }) := by
  have hp1 : bytes "%" = [37] := by decide
  have hpc : bytes "%c" = [37, 99] := by decide
  -- a lone final byte is written literally, whatever it is
  have single : ∀ (c : Byte) (i : Nat) (buf : List Character),
      PrintStringEx.loop [c] color i buf = PrintString.loop color [c] i buf := by
    intro c i buf
    by_cases hi : buf.length ≤ i
    · rw [PrintStringEx_loop_of_ge color _ i buf hi, PrintString_loop_of_ge color _ i buf hi]
    · have hi2 : i < buf.length := by omega
      by_cases hc : c = 37
      · subst hc
        rw [PrintStringEx_loop_percent_short color [] (by decide) i buf hi2,
          PrintString_loop_cons_of_lt color 37 [] i buf hi2]
        rfl
      · rw [PrintStringEx_loop_cons_of_lt color c [] i buf hi2 hc,
          PrintString_loop_cons_of_lt color c [] i buf hi2]
        rfl
  -- a final `'%'` followed by one byte
  have pair : ∀ (c : Byte) (i : Nat) (buf : List Character),
      PrintStringEx.loop [37, c] color i buf = PrintString.loop color [37, c] i buf := by
    intro c i buf
    by_cases hi : buf.length ≤ i
    · rw [PrintStringEx_loop_of_ge color _ i buf hi, PrintString_loop_of_ge color _ i buf hi]
    · have hi2 : i < buf.length := by omega
      rw [PrintStringEx_loop_percent_short color [c] (by simp) i buf hi2,
        PrintString_loop_cons_of_lt color 37 [c] i buf hi2, single]
  have gen : ∀ (p t : List Byte), (37 : Byte) ∉ p → ∀ (x y : Int), 0 ≤ x → 0 ≤ y →
      (∀ (i : Nat) (buf : List Character),
        PrintStringEx.loop t color i buf = PrintString.loop color t i buf) →
      PrintStringEx x y color (p ++ t) s = PrintString x y color (p ++ t) s := by
    intro p t hp x y hx hy ht
    rw [PrintStringEx_eq x y color _ s hx hy, PrintString_eq x y color _ s hx hy,
      PrintStringEx_loop_append color p t hp, PrintString_loop_append]
    congr 2
    funext out
    exact ht _ out
  refine ⟨?_, ?_, ?_, ?_⟩
  · rw [hp1]
    exact gen p [37] hp x y hx hy (single 37)
  · rw [hpc]
    exact gen p [37, 99] hp x y hx hy (pair 99)
  · exact gen p [37, b] hp x y hx hy (pair b)
  · intro hlen
    have hB : BUFFER_LENGTH = 6750 := rfl
    have h100 : bytes "100%" = [49, 48, 48] ++ [37] := by decide
    have heq := gen [49, 48, 48] [37] (by decide) 0 0 (by decide) (by decide) (single 37)
    obtain ⟨out, h1, h2, h3⟩ :=
      PrintString_spec s 0 0 color ([49, 48, 48] ++ [37]) (by decide) (by decide)
    rw [hlen] at h2
    have hcell : ∀ j : Nat, j < 4 →
        out.m_buffer[j]? =
          (([49, 48, 48] ++ [37] : List Byte)[j]?).map
            (fun b => { ch := glyph b, color := color }) := by
      intro j hj
      rw [h3 j, startIndex_zero, hlen]
      have c : 0 ≤ j ∧ j < BUFFER_LENGTH ∧ j - 0 < ([49, 48, 48] ++ [37] : List Byte).length := by
        refine ⟨by omega, by omega, ?_⟩
        simp only [List.length_append, List.length_cons, List.length_nil]
        omega
      rw [if_pos c]
      rfl
    refine ⟨out, by rw [h100, heq, h1], ?_, ?_, ?_, ?_⟩
    · rw [cellXY_eq out 0 0 h2 (by decide) (by decide)]
      exact hcell 0 (by decide)
    · rw [cellXY_eq out 1 0 h2 (by decide) (by decide)]
      exact hcell 1 (by decide)
    · rw [cellXY_eq out 2 0 h2 (by decide) (by decide)]
      exact hcell 2 (by decide)
    · rw [cellXY_eq out 3 0 h2 (by decide) (by decide)]
      exact hcell 3 (by decide)

theorem C9_truncated_escape_is_literal_witness :
    ∃ out, PrintStringEx 0 0 7 (bytes "100%") Screen.fresh = some out ∧
      cellXY out 0 0 = some { ch := 49, color := 7 } ∧
      cellXY out 1 0 = some { ch := 48, color := 7 } ∧
      cellXY out 2 0 = some { ch := 48, color := 7 } ∧
      cellXY out 3 0 = some { ch := 37, color := 7 } :=
  (C9_truncated_escape_is_literal Screen.fresh 0 0 7 37 (bytes "100")
    (by decide) (by decide) (by decide)).2.2.2 fresh_length

/-! ## Key dispatch -/

set_option maxRecDepth 100000 in
theorem lor_extended (b : Byte) : Int.lor (b.val : Int) 0x0100 = 0x100 + (b.val : Int) := by
  revert b
  decide

/-- C10: in the key branch of the loop, with the keyboard a stream of bytes: when
the next byte is 0xE0 followed by `b`, the iteration consumes both bytes and makes
exactly one `OnKeyStroke` call, with argument `b | 0x0100` (= 0x100 + b); when the
next byte `k` is not 0xE0 it consumes that one byte and makes exactly one
`OnKeyStroke` call, with argument `k`. -/
theorem C10_extended_key_is_one_keystroke {V : Type} (view : IScreenClient V)
    (acts : ActionId → V → Screen → V × Screen) (w : LoopState V) (rest : List Byte) :
    (∀ b : Byte, w.keys = 0xe0 :: b :: rest →
      dispatch view acts w =
        some { w with
          keys := rest
          view := (view.OnKeyStroke (Int.lor b.val 0x0100) w.view w.screen).1
          screen := (view.OnKeyStroke (Int.lor b.val 0x0100) w.view w.screen).2
          trace := w.trace ++ [Event.OnKeyStroke (Int.lor b.val 0x0100)] } ∧
      Int.lor (b.val : Int) 0x0100 = 0x100 + (b.val : Int) ∧
      Int.lor (b.val : Int) 0x0100 ≠ 0xe0) ∧
    (∀ k : Byte, k ≠ 0xe0 → w.keys = k :: rest →
      dispatch view acts w =
        some { w with
          keys := rest
          view := (view.OnKeyStroke k.val w.view w.screen).1
          screen := (view.OnKeyStroke k.val w.view w.screen).2
          trace := w.trace ++ [Event.OnKeyStroke k.val] }) := by
  constructor
  · intro b hk
    refine ⟨?_, lor_extended b, ?_⟩
    · have h224 : (((224 : Byte).val : Nat) : Int) = 224 := rfl
      simp [dispatch, kbhit, keyBranch, getch, hk, h224]
    · rw [lor_extended]
      omega
  · intro k hne hk
    have hk2 : ((k.val : Nat) : Int) ≠ 224 := by
      intro h
      apply hne
      apply Fin.ext
      have : k.val = 224 := by omega
      rw [this]
      rfl
    simp [dispatch, kbhit, keyBranch, getch, hk, hk2]

theorem C10_extended_key_is_one_keystroke_witness :
    dispatch (V := Unit)
        { Render := fun v s => (v, s), OnTick := fun v s => (v, s),
          OnKeyStroke := fun ch v s => (v, Quit ch s) }
        (fun _ v s => (v, s))
        { screen := Screen.fresh, view := (), keys := [0xe0, 0x48, 0x1b], prevTick := 0,
          trace := [] } =
      some { screen := Quit 0x148 Screen.fresh, view := (), keys := [0x1b], prevTick := 0,
             trace := [Event.OnKeyStroke 0x148] } :=
  ((C10_extended_key_is_one_keystroke (V := Unit) _ _ _ [0x1b]).1 0x48 rfl).1

/-! ## The loop: unfolding and traces -/

/-- One evaluation of the inner `while` condition: stay in the wait and run the
body, or leave with the state as it is. -/
theorem idleWait_cons {V : Type} (view : IScreenClient V) (p : Poll) (script : List Poll)
    (w : LoopState V) :
    idleWait view (p :: script) w =
      if !kbhit (arrive p w) && (arrive p w).screen.m_invokee.isEmpty then
        idleWait view script (idleStep view p.nowTick (arrive p w))
      else some (arrive p w, script) := by
  rw [idleWait]
  by_cases hc : (!kbhit (arrive p w) && (arrive p w).screen.m_invokee.isEmpty) = true
  · by_cases ht : (p.nowTick + 2 ^ 32 - (arrive p w).prevTick) % 2 ^ 32 ≥ 100
    · simp only [hc, ht, idleStep, if_true]
    · simp only [hc, ht, idleStep, if_true, if_false]
  · simp [hc]

theorem Loop_run_succ {V : Type} (view : IScreenClient V)
    (acts : ActionId → V → Screen → V × Screen) (fuel : Nat) (script : List Poll)
    (w : LoopState V) :
    Loop.run view acts (fuel + 1) script w =
      if w.screen.m_quit then some (w.screen.m_exitcode, w)
      else (Loop.body view acts script w).bind
        (fun r => Loop.run view acts fuel r.2 r.1) := by
  rw [Loop.run, Loop.body]
  by_cases hq : w.screen.m_quit = true
  · simp only [hq, if_true]
  · rcases h1 : idleWait view script (renderPass view w) with _ | ⟨w2, script2⟩
    · simp [hq]
    · rcases h2 : dispatch view acts w2 with _ | w3
      · simp [hq, h2]
      · simp [hq, h2]

theorem renderPass_trace {V : Type} (view : IScreenClient V) (w : LoopState V) :
    (renderPass view w).trace =
      w.trace ++ [Event.ClearBuffer, Event.Render, Event.DrawBuffer] := rfl

/-- The events one pass through the body of the idle wait adds to the trace. -/
theorem idleStep_trace {V : Type} (view : IScreenClient V) (now : Nat) (w : LoopState V) :
    (idleStep view now w).trace =
      if (now + 2 ^ 32 - w.prevTick) % 2 ^ 32 ≥ 100 then
        w.trace ++ [Event.OnTick, Event.ClearBuffer, Event.Render, Event.DrawBuffer]
      else w.trace ++ [Event.Sleep] := by
  unfold idleStep
  split
  · simp [renderPass]
  · rfl

/-- The key branch, when it returns, adds exactly one `OnKeyStroke` event. -/
theorem keyBranch_trace {V : Type} (view : IScreenClient V) (w w3 : LoopState V)
    (h : keyBranch view w = some w3) :
    ∃ ch, w3.trace = w.trace ++ [Event.OnKeyStroke ch] := by
  unfold keyBranch getch at h
  cases hk : w.keys with
  | nil => simp [hk] at h
  | cons k rest =>
    simp only [hk] at h
    by_cases he : ((k.val : Nat) : Int) = 0xe0
    · cases rest with
      | nil => simp [he] at h
      | cons b rest2 =>
        simp only [he, if_true, Option.some.injEq] at h
        exact ⟨_, by rw [← h]⟩
    · simp only [he, if_false, Option.some.injEq] at h
      exact ⟨_, by rw [← h]⟩

/-- The action branch, when it returns, adds the four events of one action. -/
theorem actionBranch_trace {V : Type} (acts : ActionId → V → Screen → V × Screen)
    (w w3 : LoopState V) (h : actionBranch acts w = some w3) :
    ∃ act, w3.trace = w.trace ++ [Event.EnterCriticalSection, Event.PopFront act,
      Event.RunAction act, Event.LeaveCriticalSection] := by
  unfold actionBranch at h
  cases hq : w.screen.m_invokee with
  | nil => simp [hq] at h
  | cons act rest =>
    simp only [hq, Option.some.injEq] at h
    exact ⟨act, by rw [← h]⟩

/-- On leaving the idle wait a key is waiting or the queue is not empty. -/
theorem idleWait_exit {V : Type} (view : IScreenClient V) :
    ∀ (script : List Poll) (w w2 : LoopState V) (script2 : List Poll),
      idleWait view script w = some (w2, script2) →
      kbhit w2 = true ∨ w2.screen.m_invokee.isEmpty = false := by
  intro script
  induction script with
  | nil => intro w w2 script2 h; simp [idleWait] at h
  | cons p rest ih =>
    intro w w2 script2 h
    rw [idleWait_cons] at h
    by_cases hc : (!kbhit (arrive p w) && (arrive p w).screen.m_invokee.isEmpty) = true
    · rw [if_pos hc] at h
      exact ih _ w2 script2 h
    · rw [if_neg hc] at h
      simp only [Option.some.injEq, Prod.mk.injEq] at h
      rw [← h.1]
      simp only [Bool.and_eq_true, Bool.not_eq_true', not_and, Bool.not_eq_true] at hc
      by_cases hk : kbhit (arrive p w) = true
      · exact Or.inl hk
      · right
        apply hc
        simpa using hk

/-- What the dispatch step adds to the trace when a key is waiting or the queue is
not empty: one `OnKeyStroke`, or the four events of one action. -/
theorem dispatch_trace {V : Type} (view : IScreenClient V)
    (acts : ActionId → V → Screen → V × Screen) (w w3 : LoopState V)
    (hw : kbhit w = true ∨ w.screen.m_invokee.isEmpty = false)
    (h : dispatch view acts w = some w3) :
    (∃ ch, w3.trace = w.trace ++ [Event.OnKeyStroke ch]) ∨
    (∃ act, w3.trace = w.trace ++ [Event.EnterCriticalSection, Event.PopFront act,
      Event.RunAction act, Event.LeaveCriticalSection]) := by
  unfold dispatch at h
  by_cases hk : kbhit w = true
  · rw [if_pos hk] at h
    exact Or.inl (keyBranch_trace view w w3 h)
  · rw [if_neg hk] at h
    have hq : w.screen.m_invokee.isEmpty = false := by
      rcases hw with hw | hw
      · exact absurd hw hk
      · exact hw
    simp only [hq, Bool.not_false, if_true] at h
    exact Or.inr (actionBranch_trace acts w w3 h)

/-- A property of traces that survives every single event other than `Render` and
every render pass survives the idle wait. -/
theorem idleWait_inv {V : Type} (view : IScreenClient V) (P : List Event → Prop)
    (hsingle : ∀ tr e, e ≠ Event.Render → P tr → P (tr ++ [e]))
    (hpass : ∀ tr, P tr → P (tr ++ [Event.ClearBuffer, Event.Render, Event.DrawBuffer])) :
    ∀ (script : List Poll) (w w2 : LoopState V) (script2 : List Poll),
      P w.trace → idleWait view script w = some (w2, script2) → P w2.trace := by
  intro script
  induction script with
  | nil => intro w w2 script2 _ h; simp [idleWait] at h
  | cons p rest ih =>
    intro w w2 script2 hP h
    rw [idleWait_cons] at h
    by_cases hc : (!kbhit (arrive p w) && (arrive p w).screen.m_invokee.isEmpty) = true
    · rw [if_pos hc] at h
      refine ih _ w2 script2 ?_ h
      rw [idleStep_trace]
      split
      · have h1 := hpass _ (hsingle _ Event.OnTick (by decide) hP)
        simpa [arrive] using h1
      · exact hsingle _ Event.Sleep (by decide) hP
    · rw [if_neg hc] at h
      simp only [Option.some.injEq, Prod.mk.injEq] at h
      rw [← h.1]
      exact hP

theorem dispatch_inv {V : Type} (view : IScreenClient V)
    (acts : ActionId → V → Screen → V × Screen) (P : List Event → Prop)
    (hsingle : ∀ tr e, e ≠ Event.Render → P tr → P (tr ++ [e]))
    (w w3 : LoopState V) (hP : P w.trace) (h : dispatch view acts w = some w3) :
    P w3.trace := by
  unfold dispatch at h
  by_cases hk : kbhit w = true
  · rw [if_pos hk] at h
    obtain ⟨ch, hch⟩ := keyBranch_trace view w w3 h
    rw [hch]
    exact hsingle _ _ (by simp) hP
  · rw [if_neg hk] at h
    by_cases hq : (!w.screen.m_invokee.isEmpty) = true
    · rw [if_pos hq] at h
      obtain ⟨act, hact⟩ := actionBranch_trace acts w w3 h
      rw [hact]
      have h1 := hsingle _ Event.EnterCriticalSection (by decide) hP
      have h2 := hsingle _ (Event.PopFront act) (by simp) h1
      have h3 := hsingle _ (Event.RunAction act) (by simp) h2
      have h4 := hsingle _ Event.LeaveCriticalSection (by decide) h3
      simpa using h4
    · rw [if_neg hq] at h
      cases h
      exact hP

/-- A property of traces that survives every single event other than `Render` and
every render pass holds of the trace of every completed run of the loop. -/
theorem Loop_run_inv {V : Type} (view : IScreenClient V)
    (acts : ActionId → V → Screen → V × Screen) (P : List Event → Prop)
    (hsingle : ∀ tr e, e ≠ Event.Render → P tr → P (tr ++ [e]))
    (hpass : ∀ tr, P tr → P (tr ++ [Event.ClearBuffer, Event.Render, Event.DrawBuffer])) :
    ∀ (fuel : Nat) (script : List Poll) (w : LoopState V) (c : Int) (w2 : LoopState V),
      P w.trace → Loop.run view acts fuel script w = some (c, w2) → P w2.trace := by
  intro fuel
  induction fuel with
  | zero => intro script w c w2 _ h; simp [Loop.run] at h
  | succ n ih =>
    intro script w c w2 hP h
    rw [Loop.run] at h
    by_cases hq : w.screen.m_quit = true
    · simp only [hq, if_true, Option.some.injEq, Prod.mk.injEq] at h
      rw [← h.2]
      exact hP
    · simp only [hq, if_false] at h
      rcases h1 : idleWait view script (renderPass view w) with _ | ⟨wa, script2⟩
      · simp [h1] at h
      · simp only [h1] at h
        rcases h2 : dispatch view acts wa with _ | wb
        · simp [h2] at h
        · simp only [h2] at h
          have hPa : P wa.trace :=
            idleWait_inv view P hsingle hpass script _ wa script2 (hpass _ hP) h1
          exact ih script2 wb c w2 (dispatch_inv view acts P hsingle wa wb hPa h2) h

/-- A completed run of the loop ends with `m_quit` set and returns `m_exitcode`. -/
theorem Loop_run_result {V : Type} (view : IScreenClient V)
    (acts : ActionId → V → Screen → V × Screen) :
    ∀ (fuel : Nat) (script : List Poll) (w : LoopState V) (c : Int) (w2 : LoopState V),
      Loop.run view acts fuel script w = some (c, w2) →
      w2.screen.m_quit = true ∧ c = w2.screen.m_exitcode := by
  intro fuel
  induction fuel with
  | zero => intro script w c w2 h; simp [Loop.run] at h
  | succ n ih =>
    intro script w c w2 h
    rw [Loop_run_succ] at h
    by_cases hq : w.screen.m_quit = true
    · simp only [hq, if_true, Option.some.injEq, Prod.mk.injEq] at h
      rw [← h.2, ← h.1]
      exact ⟨hq, rfl⟩
    · simp only [hq, if_false] at h
      rcases hb : Loop.body view acts script w with _ | ⟨w3, script2⟩
      · simp [hb] at h
      · simp only [hb, Option.some_bind] at h
        exact ih script2 w3 c w2 h

/-! ## Clearing and rendering -/

theorem renderGuarded_append (a b : List Event) :
    ∀ prev : Option Event,
      renderGuarded prev (a ++ b) =
        (renderGuarded prev a && renderGuarded (a.getLast?.or prev) b) := by
  induction a with
  | nil => intro prev; simp [renderGuarded]
  | cons e rest ih =>
    intro prev
    rw [List.cons_append, renderGuarded, renderGuarded, ih (some e), Bool.and_assoc]
    congr 2
    cases rest with
    | nil => rfl
    | cons e2 rest2 =>
      rw [List.getLast?_cons_cons]
      cases h : (e2 :: rest2).getLast? with
      | none => simp at h
      | some x => rfl

/-- C17: after `ClearBuffer` every cell holds the glyph ' ' (32) and the colour
`FOREGROUND_RED|FOREGROUND_GREEN|FOREGROUND_BLUE` (7), whatever it held before, and
the buffer length is unchanged; `ClearBuffer` is idempotent; the render pass hands
`Render` the screen just cleared, and in the trace of every completed run of
`Loop` each `Render` comes right after a `ClearBuffer`. -/
theorem C17_ClearBuffer_blanks_every_cell {V : Type} (view : IScreenClient V)
    (acts : ActionId → V → Screen → V × Screen) (s : Screen) (w : LoopState V) :
    (∀ j, j < s.m_buffer.length →
      (ClearBuffer s).m_buffer[j]? = some { ch := 32, color := 0x07 }) ∧
    FOREGROUND_WHITE = Fin.ofNat (4 ||| 2 ||| 1) ∧
    (ClearBuffer s).m_buffer.length = s.m_buffer.length ∧
    ClearBuffer (ClearBuffer s) = ClearBuffer s ∧
    ((renderPass view w).screen = (view.Render w.view (ClearBuffer w.screen)).2 ∧
      (renderPass view w).trace =
        w.trace ++ [Event.ClearBuffer, Event.Render, Event.DrawBuffer]) ∧
    (∀ (startTick : Nat) (script : List Poll) (keys : List Byte) (v : V) (s0 : Screen)
        (c : Int) (w2 : LoopState V),
      Loop view acts startTick script keys v s0 = some (c, w2) →
      renderGuarded none w2.trace = true) := by
  refine ⟨?_, by decide, ?_, ?_, ⟨rfl, rfl⟩, ?_⟩
  · intro j hj
    simp [ClearBuffer, hj, blank, FOREGROUND_WHITE]
  · simp [ClearBuffer]
  · simp [ClearBuffer]
  · intro startTick script keys v s0 c w2 h
    refine Loop_run_inv view acts (fun tr => renderGuarded none tr = true) ?_ ?_
      (script.length + 1) script
      { screen := s0, view := v, keys := keys, prevTick := startTick % 2 ^ 32, trace := [] }
      c w2 rfl h
    · intro tr e he htr
      rw [renderGuarded_append, htr]
      simp [renderGuarded, he]
    · intro tr htr
      rw [renderGuarded_append, htr]
      simp [renderGuarded]

theorem C17_ClearBuffer_blanks_every_cell_witness :
    renderGuarded none
      [Event.ClearBuffer, Event.Render, Event.DrawBuffer, Event.OnKeyStroke 27] = true :=
  (C17_ClearBuffer_blanks_every_cell quitOnKey idleActions Screen.fresh
    { screen := Screen.fresh, view := (), keys := [], prevTick := 0, trace := [] }).2.2.2.2.2
    0 [{ typed := [27], invoked := [], nowTick := 5 }] [] () Screen.fresh 27
    { screen := Quit 27 (ClearBuffer Screen.fresh), view := (), keys := [], prevTick := 0,
      trace := [Event.ClearBuffer, Event.Render, Event.DrawBuffer, Event.OnKeyStroke 27] }
    rfl

/-- C18: for every x, y, colour and every text without a `'%'` byte,
`PrintStringEx(x,y,color,text)` and `PrintString(x,y,color,text)` give the same
screen from the same starting screen. -/
theorem C18_formatted_extends_plain (s : Screen) (x y : Int) (color : Byte)
    (text : List Byte) (htext : (37 : Byte) ∉ text) :
    PrintStringEx x y color text s = PrintString x y color text s := by
  unfold PrintStringEx PrintString
  rw [PrintStringEx_loop_eq_plain color text htext]

theorem C18_formatted_extends_plain_witness :
    PrintStringEx 3 2 7 (bytes "Hello") Screen.fresh =
      PrintString 3 2 7 (bytes "Hello") Screen.fresh :=
  C18_formatted_extends_plain Screen.fresh 3 2 7 (bytes "Hello") (by decide)

/-! ## Quit, dispatch order and the queue lock -/

/-- The key branch, when it returns: one `OnKeyStroke(ch)` call, made on the view
and the screen as they were on entry. -/
theorem keyBranch_result {V : Type} (view : IScreenClient V) (w w3 : LoopState V)
    (h : keyBranch view w = some w3) :
    ∃ ch, w3.trace = w.trace ++ [Event.OnKeyStroke ch] ∧
      w3.screen = (view.OnKeyStroke ch w.view w.screen).2 ∧
      w3.view = (view.OnKeyStroke ch w.view w.screen).1 := by
  unfold keyBranch getch at h
  cases hk : w.keys with
  | nil => simp [hk] at h
  | cons k rest =>
    simp only [hk] at h
    by_cases he : ((k.val : Nat) : Int) = 0xe0
    · cases rest with
      | nil => simp [he] at h
      | cons b rest2 =>
        simp only [he, if_true, Option.some.injEq] at h
        exact ⟨_, by rw [← h], by rw [← h], by rw [← h]⟩
    · simp only [he, if_false, Option.some.injEq] at h
      exact ⟨_, by rw [← h], by rw [← h], by rw [← h]⟩

/-- The two halves of a completed pass through the body of the outer `while`. -/
theorem Loop_body_some {V : Type} (view : IScreenClient V)
    (acts : ActionId → V → Screen → V × Screen) (script script2 : List Poll)
    (w w3 : LoopState V) (h : Loop.body view acts script w = some (w3, script2)) :
    ∃ wa, idleWait view script (renderPass view w) = some (wa, script2) ∧
      dispatch view acts wa = some w3 := by
  unfold Loop.body at h
  rcases h1 : idleWait view script (renderPass view w) with _ | ⟨wa, sa⟩
  · simp [h1] at h
  · simp only [h1] at h
    rcases h2 : dispatch view acts wa with _ | wb
    · simp [h2] at h
    · simp only [h2, Option.some.injEq, Prod.mk.injEq] at h
      exact ⟨wa, by rw [← h.2], by rw [← h.1]; exact h2⟩

/-- A completed run that starts with `m_quit` clear begins with a render pass. -/
theorem Loop_run_starts_with_pass {V : Type} (view : IScreenClient V)
    (acts : ActionId → V → Screen → V × Screen) (fuel : Nat) (script : List Poll)
    (w : LoopState V) (c : Int) (w2 : LoopState V) (hq : w.screen.m_quit = false)
    (h : Loop.run view acts fuel script w = some (c, w2)) :
    w.trace ++ [Event.ClearBuffer, Event.Render, Event.DrawBuffer] <+: w2.trace := by
  have hsingle : ∀ (tr : List Event) (e : Event), e ≠ Event.Render →
      w.trace ++ [Event.ClearBuffer, Event.Render, Event.DrawBuffer] <+: tr →
      w.trace ++ [Event.ClearBuffer, Event.Render, Event.DrawBuffer] <+: tr ++ [e] :=
    fun tr e _ htr => htr.trans (List.prefix_append tr [e])
  have hpass : ∀ (tr : List Event),
      w.trace ++ [Event.ClearBuffer, Event.Render, Event.DrawBuffer] <+: tr →
      w.trace ++ [Event.ClearBuffer, Event.Render, Event.DrawBuffer] <+:
        tr ++ [Event.ClearBuffer, Event.Render, Event.DrawBuffer] :=
    fun tr htr => htr.trans (List.prefix_append tr _)
  cases fuel with
  | zero => simp [Loop.run] at h
  | succ n =>
    rw [Loop_run_succ] at h
    simp only [hq, Bool.false_eq_true, if_false] at h
    rcases hb : Loop.body view acts script w with _ | ⟨w3, script2⟩
    · simp [hb] at h
    · simp only [hb, Option.some_bind] at h
      obtain ⟨wa, h1, h2⟩ := Loop_body_some view acts script script2 w w3 hb
      have ha := idleWait_inv view _ hsingle hpass script _ wa script2
        (by rw [renderPass_trace]) h1
      have h3 := dispatch_inv view acts _ hsingle wa w3 ha h2
      exact Loop_run_inv view acts _ hsingle hpass n script2 w3 c w2 h3 h

theorem Quit_Quit (c c0 : Int) (s : Screen) : Quit c (Quit c0 s) = Quit c s := rfl

/-- C11: when the `OnKeyStroke` callback of a key dispatch leaves the screen as
`Quit(c)` left it, `Loop` returns `c`, and the trace of the run ends with that
`OnKeyStroke` call: no `ClearBuffer`, `Render`, `DrawBuffer`, `OnTick` or
`OnKeyStroke` follows it. A later `Quit` overrides an earlier one, so the value
returned is that of the last call. -/
theorem C11_quit_in_keystroke_returns_code {V : Type} (view : IScreenClient V)
    (acts : ActionId → V → Screen → V × Screen) (fuel : Nat) (script script2 : List Poll)
    (w w2 w3 : LoopState V) (c : Int) (s1 : Screen)
    (hq : w.screen.m_quit = false)
    (hidle : idleWait view script (renderPass view w) = some (w2, script2))
    (hkey : kbhit w2 = true)
    (hdisp : dispatch view acts w2 = some w3)
    (hquit : w3.screen = Quit c s1) :
    Loop.run view acts (fuel + 2) script w = some (c, w3) ∧
    (∃ ch, w3.trace = w2.trace ++ [Event.OnKeyStroke ch] ∧
      w3.screen = (view.OnKeyStroke ch w2.view w2.screen).2) ∧
    (∀ c0 s0, Quit c (Quit c0 s0) = Quit c s0 ∧ (Quit c (Quit c0 s0)).m_exitcode = c) := by
  refine ⟨?_, ?_, fun c0 s0 => ⟨rfl, rfl⟩⟩
  · rw [Loop_run_succ, Loop.body, hidle]
    simp only [hq, hdisp, Option.some_bind, Bool.false_eq_true, if_false]
    rw [Loop_run_succ]
    simp [hquit, Quit]
  · have hd := hdisp
    unfold dispatch at hd
    rw [if_pos hkey] at hd
    obtain ⟨ch, h1, h2, _⟩ := keyBranch_result view w2 w3 hd
    exact ⟨ch, h1, h2⟩

theorem C11_quit_in_keystroke_returns_code_witness :
    Loop quitOnKey idleActions 0 [{ typed := [7], invoked := [], nowTick := 5 }] [] ()
        Screen.fresh =
      some (7, { screen := Quit 7 (ClearBuffer Screen.fresh), view := (), keys := [],
                 prevTick := 0,
                 trace := [Event.ClearBuffer, Event.Render, Event.DrawBuffer,
                   Event.OnKeyStroke 7] }) :=
  (C11_quit_in_keystroke_returns_code quitOnKey idleActions 0
    [{ typed := [7], invoked := [], nowTick := 5 }] []
    { screen := Screen.fresh, view := (), keys := [], prevTick := 0, trace := [] }
    { screen := ClearBuffer Screen.fresh, view := (), keys := [7], prevTick := 0,
      trace := [Event.ClearBuffer, Event.Render, Event.DrawBuffer] }
    { screen := Quit 7 (ClearBuffer Screen.fresh), view := (), keys := [], prevTick := 0,
      trace := [Event.ClearBuffer, Event.Render, Event.DrawBuffer, Event.OnKeyStroke 7] }
    7 (ClearBuffer Screen.fresh) rfl rfl rfl rfl rfl).1

/-- C12 (as stated, refuted): on a screen on which `Quit(7)` was called before,
`Loop` returns 7 at once: `m_quit` is not reset, the trace is empty, no render
pass is made and the script is not even looked at. -/
theorem C12_loop_does_not_reset_quit :
    (Quit 7 Screen.fresh).m_quit = true ∧
    Loop quitOnKey idleActions 0 [{ typed := [27], invoked := [], nowTick := 5 }] [] ()
        (Quit 7 Screen.fresh) =
      some (7, { screen := Quit 7 Screen.fresh, view := (), keys := [], prevTick := 0,
                 trace := [] }) :=
  ⟨rfl, rfl⟩

/-- C12 (amended): `Loop` does not reset `m_quit`. Called on a screen whose `m_quit`
is already set it returns the stored exit code at once, with no render pass.
Called on a screen whose `m_quit` is clear, every completed run starts with a
render pass (`ClearBuffer`, `Render`, `DrawBuffer`) and ends with `m_quit` set
during the run, returning the exit code stored then. -/
theorem C12_loop_starts_from_current_quit {V : Type} (view : IScreenClient V)
    (acts : ActionId → V → Screen → V × Screen) (startTick : Nat) (script : List Poll)
    (keys : List Byte) (v : V) (s : Screen) :
    (s.m_quit = true →
      Loop view acts startTick script keys v s =
        some (s.m_exitcode, { screen := s, view := v, keys := keys,
                              prevTick := startTick % 2 ^ 32, trace := [] })) ∧
    (s.m_quit = false → ∀ (c : Int) (w2 : LoopState V),
      Loop view acts startTick script keys v s = some (c, w2) →
      [Event.ClearBuffer, Event.Render, Event.DrawBuffer] <+: w2.trace ∧
      w2.screen.m_quit = true ∧ c = w2.screen.m_exitcode) := by
  constructor
  · intro hq
    unfold Loop
    rw [Loop_run_succ]
    simp [hq]
  · intro hq c w2 h
    unfold Loop at h
    refine ⟨?_, Loop_run_result view acts _ _ _ c w2 h⟩
    have hp := Loop_run_starts_with_pass view acts _ script _ c w2 hq h
    simpa using hp

theorem C12_loop_starts_from_current_quit_witness :
    [Event.ClearBuffer, Event.Render, Event.DrawBuffer] <+:
        [Event.ClearBuffer, Event.Render, Event.DrawBuffer, Event.OnKeyStroke 27] ∧
      (Quit 27 (ClearBuffer Screen.fresh)).m_quit = true ∧
      (27 : Int) = (Quit 27 (ClearBuffer Screen.fresh)).m_exitcode :=
  (C12_loop_starts_from_current_quit quitOnKey idleActions 0
    [{ typed := [27], invoked := [], nowTick := 5 }] [] () Screen.fresh).2 rfl 27
    { screen := Quit 27 (ClearBuffer Screen.fresh), view := (), keys := [], prevTick := 0,
      trace := [Event.ClearBuffer, Event.Render, Event.DrawBuffer, Event.OnKeyStroke 27] }
    rfl

/-- C13 (as stated, refuted): in the trace of the action branch the action runs
between `EnterCriticalSection` and `LeaveCriticalSection`: the queue lock is held
while the action executes. -/
theorem C13_action_runs_under_lock :
    (actionBranch idleActions
        { screen := Invoke 1 Screen.fresh, view := (), keys := [], prevTick := 0,
          trace := [] }).map (fun w => w.trace) =
      some [Event.EnterCriticalSection, Event.PopFront 1, Event.RunAction 1,
        Event.LeaveCriticalSection] ∧
    runsUnderLock false [Event.EnterCriticalSection, Event.PopFront 1, Event.RunAction 1,
        Event.LeaveCriticalSection] = true :=
  ⟨rfl, rfl⟩

/-- C13 (amended): in the action branch, with the queue holding `act :: rest`,
exactly the front action `act` is removed while the lock is held, the action is
then invoked on the queue `rest` with the lock still held, and the lock is
released only after the action has returned. -/
theorem C13_action_branch_lock_order {V : Type}
    (acts : ActionId → V → Screen → V × Screen) (w : LoopState V) (act : ActionId)
    (rest : List ActionId) (hqueue : w.screen.m_invokee = act :: rest) :
    ∃ w3, actionBranch acts w = some w3 ∧
      w3.trace = w.trace ++ [Event.EnterCriticalSection, Event.PopFront act,
        Event.RunAction act, Event.LeaveCriticalSection] ∧
      w3.screen = (acts act w.view { w.screen with m_invokee := rest }).2 ∧
      w3.view = (acts act w.view { w.screen with m_invokee := rest }).1 ∧
      lockHeldAfter false [Event.EnterCriticalSection, Event.PopFront act] = true ∧
      runsUnderLock false [Event.EnterCriticalSection, Event.PopFront act,
        Event.RunAction act, Event.LeaveCriticalSection] = true ∧
      lockHeldAfter false [Event.EnterCriticalSection, Event.PopFront act,
        Event.RunAction act, Event.LeaveCriticalSection] = false := by
  refine ⟨{ w with
      view := (acts act w.view { w.screen with m_invokee := rest }).1
      screen := (acts act w.view { w.screen with m_invokee := rest }).2
      trace := w.trace ++ [Event.EnterCriticalSection, Event.PopFront act,
        Event.RunAction act, Event.LeaveCriticalSection] },
    ?_, rfl, rfl, rfl, rfl, rfl, rfl⟩
  simp [actionBranch, hqueue]

theorem C13_action_branch_lock_order_witness :
    ∃ w3, actionBranch idleActions
        { screen := Invoke 2 (Invoke 1 Screen.fresh), view := (), keys := [],
          prevTick := 0, trace := [] } = some w3 ∧
      w3.trace = [Event.EnterCriticalSection, Event.PopFront 1, Event.RunAction 1,
        Event.LeaveCriticalSection] ∧
      w3.screen.m_invokee = [2] := by
  obtain ⟨w3, h1, h2, h3, _⟩ := C13_action_branch_lock_order idleActions
    { screen := Invoke 2 (Invoke 1 Screen.fresh), view := (), keys := [],
      prevTick := 0, trace := [] } 1 [2] rfl
  exact ⟨w3, h1, h2, by rw [h3]; rfl⟩

theorem actionsRun_append (a b : List Event) :
    actionsRun (a ++ b) = actionsRun a ++ actionsRun b := by
  induction a with
  | nil => rfl
  | cons e rest ih =>
    cases e <;> simp [actionsRun, ih]

/-- C14: when on leaving the idle wait a key is available and the action queue is
not empty, the dispatch step takes the key branch: it makes one `OnKeyStroke` call
on the screen with the queue as it was, runs no action, and it does return
whenever the key is complete (not a lone 0xE0 lead byte). An action is run by a
dispatch step only when no key is available. -/
theorem C14_key_before_action {V : Type} (view : IScreenClient V)
    (acts : ActionId → V → Screen → V × Screen) (w : LoopState V)
    (hkey : kbhit w = true) (_hqueue : w.screen.m_invokee ≠ []) :
    dispatch view acts w = keyBranch view w ∧
    (∀ w3, dispatch view acts w = some w3 →
      ∃ ch, w3.trace = w.trace ++ [Event.OnKeyStroke ch] ∧
        w3.screen = (view.OnKeyStroke ch w.view w.screen).2 ∧
        w3.view = (view.OnKeyStroke ch w.view w.screen).1 ∧
        actionsRun w3.trace = actionsRun w.trace) ∧
    (∀ k rest, w.keys = k :: rest → (k ≠ 0xe0 ∨ rest ≠ []) →
      ∃ w3, dispatch view acts w = some w3) ∧
    (∀ (w0 w3 : LoopState V), dispatch view acts w0 = some w3 →
      actionsRun w3.trace ≠ actionsRun w0.trace → kbhit w0 = false) := by
  have hd : dispatch view acts w = keyBranch view w := by
    unfold dispatch
    rw [if_pos hkey]
  refine ⟨hd, ?_, ?_, ?_⟩
  · intro w3 h3
    rw [hd] at h3
    obtain ⟨ch, h1, h2, h4⟩ := keyBranch_result view w w3 h3
    refine ⟨ch, h1, h2, h4, ?_⟩
    rw [h1, actionsRun_append]
    simp [actionsRun]
  · intro k rest hk hcomplete
    rw [hd]
    unfold keyBranch getch
    by_cases he : ((k.val : Nat) : Int) = 0xe0
    · rcases hcomplete with hne | hne
      · exfalso
        apply hne
        apply Fin.ext
        have : k.val = 224 := by omega
        rw [this]
        rfl
      · cases rest with
        | nil => exact absurd rfl hne
        | cons b rest2 => simp [hk, he]
    · simp [hk, he]
  · intro w0 w3 h3 hne
    by_contra hk0
    have hk1 : kbhit w0 = true := by simpa using hk0
    unfold dispatch at h3
    rw [if_pos hk1] at h3
    obtain ⟨ch, h1, _⟩ := keyBranch_result view w0 w3 h3
    apply hne
    rw [h1, actionsRun_append]
    simp [actionsRun]

theorem C14_key_before_action_witness :
    ∃ w3, dispatch quitOnKey idleActions
        { screen := Invoke 1 Screen.fresh, view := (), keys := [65], prevTick := 0,
          trace := [] } = some w3 :=
  (C14_key_before_action quitOnKey idleActions
    { screen := Invoke 1 Screen.fresh, view := (), keys := [65], prevTick := 0,
      trace := [] } rfl (by simp [Invoke])).2.2.1 65 [] rfl (Or.inl (by decide))

/-- The action branch on a queue `act :: rest`. -/
theorem actionBranch_of_queue {V : Type} (acts : ActionId → V → Screen → V × Screen)
    (w : LoopState V) (act : ActionId) (rest : List ActionId)
    (hqueue : w.screen.m_invokee = act :: rest) :
    actionBranch acts w =
      some { w with
        view := (acts act w.view { w.screen with m_invokee := rest }).1
        screen := (acts act w.view { w.screen with m_invokee := rest }).2
        trace := w.trace ++ [Event.EnterCriticalSection, Event.PopFront act,
          Event.RunAction act, Event.LeaveCriticalSection] } := by
  simp [actionBranch, hqueue]

/-! ## The action queue -/

theorem Invoke_foldl_queue (as : List ActionId) :
    ∀ s : Screen, (as.foldl (fun s act => Invoke act s) s).m_invokee = s.m_invokee ++ as := by
  induction as with
  | nil => intro s; simp
  | cons a rest ih =>
    intro s
    rw [List.foldl_cons, ih]
    simp [Invoke]

theorem Invoke_foldl_quit (as : List ActionId) :
    ∀ s : Screen, (as.foldl (fun s act => Invoke act s) s).m_quit = s.m_quit := by
  induction as with
  | nil => intro s; rfl
  | cons a rest ih =>
    intro s
    rw [List.foldl_cons, ih]
    rfl

theorem arrive_quietPoll {V : Type} (now : Nat) (w : LoopState V) :
    arrive (quietPoll now) w = w := by
  simp [arrive, quietPoll]

theorem actionsRun_actionTrace (as : List ActionId) : actionsRun (actionTrace as) = as := by
  induction as with
  | nil => rfl
  | cons a rest ih => simp [actionTrace, actionsRun, ih]

/-- One pass of the outer `while` with no key, a non-empty queue and a quiet poll:
a render pass, then the front action. -/
theorem Loop_body_action {V : Type} (view : IScreenClient V)
    (acts : ActionId → V → Screen → V × Screen)
    (hRender : ∀ v s, (view.Render v s).2.m_invokee = s.m_invokee ∧
      (view.Render v s).2.m_quit = s.m_quit)
    (hActs : ∀ a v s, (acts a v s).2.m_invokee = s.m_invokee ∧
      (acts a v s).2.m_quit = s.m_quit)
    (w : LoopState V) (a : ActionId) (rest : List ActionId) (now : Nat)
    (script : List Poll) (hkeys : w.keys = []) (hquit : w.screen.m_quit = false)
    (hqueue : w.screen.m_invokee = a :: rest) :
    ∃ w3, Loop.body view acts (quietPoll now :: script) w = some (w3, script) ∧
      w3.trace = w.trace ++ [Event.ClearBuffer, Event.Render, Event.DrawBuffer,
        Event.EnterCriticalSection, Event.PopFront a, Event.RunAction a,
        Event.LeaveCriticalSection] ∧
      w3.keys = [] ∧ w3.screen.m_quit = false ∧ w3.screen.m_invokee = rest := by
  have hq1 : (renderPass view w).screen.m_invokee = a :: rest := by
    show (view.Render w.view (ClearBuffer w.screen)).2.m_invokee = a :: rest
    rw [(hRender _ _).1]
    exact hqueue
  have hq2 : (renderPass view w).screen.m_quit = false := by
    show (view.Render w.view (ClearBuffer w.screen)).2.m_quit = false
    rw [(hRender _ _).2]
    exact hquit
  have hk1 : (renderPass view w).keys = [] := hkeys
  have hidle : idleWait view (quietPoll now :: script) (renderPass view w) =
      some (renderPass view w, script) := by
    rw [idleWait_cons, arrive_quietPoll]
    simp [hq1]
  have hdisp : dispatch view acts (renderPass view w) =
      actionBranch acts (renderPass view w) := by
    unfold dispatch
    simp [kbhit, hk1, hq1]
  have hbody : Loop.body view acts (quietPoll now :: script) w =
      (actionBranch acts (renderPass view w)).map (fun w3 => (w3, script)) := by
    rw [Loop.body, hidle]
    simp only [hdisp]
    cases actionBranch acts (renderPass view w) <;> rfl
  rw [actionBranch_of_queue acts (renderPass view w) a rest hq1, Option.map_some'] at hbody
  refine ⟨_, hbody, ?_, hk1, ?_, ?_⟩
  · simp [renderPass]
  · show (acts a _ _).2.m_quit = false
    rw [(hActs _ _ _).2]
    exact hq2
  · show (acts a _ _).2.m_invokee = rest
    rw [(hActs _ _ _).1]

/-- The passes that empty a queue `as` when no key is ever available and nothing
sets `m_quit` or touches the queue: one pass for each action, oldest first. -/
theorem Loop_iterate_actions {V : Type} (view : IScreenClient V)
    (acts : ActionId → V → Screen → V × Screen)
    (hRender : ∀ v s, (view.Render v s).2.m_invokee = s.m_invokee ∧
      (view.Render v s).2.m_quit = s.m_quit)
    (hActs : ∀ a v s, (acts a v s).2.m_invokee = s.m_invokee ∧
      (acts a v s).2.m_quit = s.m_quit) :
    ∀ (as : List ActionId) (nows : List Nat) (w : LoopState V),
      nows.length = as.length → w.keys = [] → w.screen.m_quit = false →
      w.screen.m_invokee = as →
      ∃ w2, Loop.iterate view acts as.length (nows.map quietPoll) w = some (w2, []) ∧
        w2.trace = w.trace ++ actionTrace as ∧ w2.screen.m_invokee = [] := by
  intro as
  induction as with
  | nil =>
    intro nows w hn _ _ hqueue
    have : nows = [] := List.length_eq_zero.mp hn
    subst this
    exact ⟨w, rfl, by simp [actionTrace], hqueue⟩
  | cons a rest ih =>
    intro nows w hn hkeys hquit hqueue
    cases nows with
    | nil => simp at hn
    | cons t ts =>
      have hn2 : ts.length = rest.length := by simpa using hn
      obtain ⟨w3, hb, htr, hk3, hq3, hi3⟩ :=
        Loop_body_action view acts hRender hActs w a rest t (ts.map quietPoll)
          hkeys hquit hqueue
      obtain ⟨w2, h2, htr2, hi2⟩ := ih ts w3 hn2 hk3 hq3 hi3
      refine ⟨w2, ?_, ?_, hi2⟩
      · rw [List.length_cons, List.map_cons, Loop.iterate]
        simp only [hquit, Bool.false_eq_true, if_false, hb]
        exact h2
      · rw [htr2, htr]
        simp [actionTrace]

/-- C15: the action queue is first in, first out, and each action is run once.
`Invoke` appends at the back and leaves the other entries alone; the action branch
removes and runs the oldest entry. So after `Invoke(a1)`, ..., `Invoke(an)` on an
empty queue, with no key ever available and nothing calling `Quit` or touching the
queue, the first `n` passes of the loop run `a1`, ..., `an` in that order, one in
each pass after its render pass, and none of them twice. -/
theorem C15_queue_is_fifo {V : Type} (view : IScreenClient V)
    (acts : ActionId → V → Screen → V × Screen)
    (hRender : ∀ v s, (view.Render v s).2.m_invokee = s.m_invokee ∧
      (view.Render v s).2.m_quit = s.m_quit)
    (hActs : ∀ a v s, (acts a v s).2.m_invokee = s.m_invokee ∧
      (acts a v s).2.m_quit = s.m_quit)
    (as : List ActionId) (nows : List Nat) (w : LoopState V) (s0 : Screen)
    (hnows : nows.length = as.length) (hkeys : w.keys = [])
    (hempty : s0.m_invokee = []) (hquit : s0.m_quit = false)
    (hscreen : w.screen = as.foldl (fun s act => Invoke act s) s0) :
    (∀ a s, (Invoke a s).m_invokee = s.m_invokee ++ [a]) ∧
    w.screen.m_invokee = as ∧
    (∀ a rest (w1 : LoopState V), w1.screen.m_invokee = a :: rest →
      ∃ w3, actionBranch acts w1 = some w3 ∧
        actionsRun w3.trace = actionsRun w1.trace ++ [a] ∧
        w3.screen = (acts a w1.view { w1.screen with m_invokee := rest }).2) ∧
    ∃ w2, Loop.iterate view acts as.length (nows.map quietPoll) w = some (w2, []) ∧
      w2.trace = w.trace ++ actionTrace as ∧
      actionsRun (actionTrace as) = as ∧
      w2.screen.m_invokee = [] := by
  have hq : w.screen.m_invokee = as := by
    rw [hscreen, Invoke_foldl_queue, hempty]
    rfl
  have hqt : w.screen.m_quit = false := by
    rw [hscreen, Invoke_foldl_quit, hquit]
  refine ⟨fun a s => rfl, hq, ?_, ?_⟩
  · intro a rest w1 h1
    refine ⟨_, actionBranch_of_queue acts w1 a rest h1, ?_, rfl⟩
    simp [actionsRun_append, actionsRun]
  · obtain ⟨w2, h2, htr, hi⟩ :=
      Loop_iterate_actions view acts hRender hActs as nows w hnows hkeys hqt hq
    exact ⟨w2, h2, htr, actionsRun_actionTrace as, hi⟩

theorem C15_queue_is_fifo_witness :
    ∃ w2, Loop.iterate quitOnKey idleActions 3 ([5, 6, 7].map quietPoll)
        { screen := Invoke 30 (Invoke 20 (Invoke 10 Screen.fresh)), view := (), keys := [],
          prevTick := 0, trace := [] } = some (w2, []) ∧
      w2.trace = [] ++ actionTrace [10, 20, 30] ∧
      actionsRun (actionTrace [10, 20, 30]) = [10, 20, 30] ∧
      w2.screen.m_invokee = [] :=
  (C15_queue_is_fifo quitOnKey idleActions (fun _ _ => ⟨rfl, rfl⟩) (fun _ _ _ => ⟨rfl, rfl⟩)
    [10, 20, 30] [5, 6, 7]
    { screen := Invoke 30 (Invoke 20 (Invoke 10 Screen.fresh)), view := (), keys := [],
      prevTick := 0, trace := [] }
    Screen.fresh rfl rfl rfl rfl rfl).2.2.2

/-! ## Ticks -/

theorem withoutSleep_append (a b : List Event) :
    withoutSleep (a ++ b) = withoutSleep a ++ withoutSleep b := by
  simp [withoutSleep]

/-- Readings that never go back: the last one is not below the first. -/
theorem chain_le_last (offs : List Nat) :
    ∀ last : Nat, List.Chain (fun a b => a ≤ b ∧ b < a + 100) last offs →
      last ≤ offs.foldl (fun _ r => r) last := by
  induction offs with
  | nil => intro last _; exact Nat.le_refl _
  | cons r rest ih =>
    intro last h
    rw [List.chain_cons] at h
    rw [List.foldl_cons]
    exact Nat.le_trans h.1.1 (ih r h.2)

/-- The idle wait over quiet polls whose readings `base + r` move on by less than
100 ms from one poll to the next, left at last through a typed key: with `k`
ticks done at the reading `base + last`, it adds one tick for each further full
100 ms of the final reading, and nothing else but `Sleep(1)` calls. -/
theorem idleWait_ticks {V : Type} (view : IScreenClient V)
    (hTick : ∀ v s, (view.OnTick v s).2.m_invokee = s.m_invokee)
    (hRender : ∀ v s, (view.Render v s).2.m_invokee = s.m_invokee)
    (base : Nat) (pexit : Poll) (hexit : pexit.typed ≠ []) (script : List Poll) :
    ∀ (offs : List Nat) (last k : Nat) (w : LoopState V),
      List.Chain (fun a b => a ≤ b ∧ b < a + 100) last offs →
      100 * k ≤ last → last < 100 * (k + 1) →
      w.prevTick = (base + 100 * k) % 2 ^ 32 → w.keys = [] → w.screen.m_invokee = [] →
      ∃ w2, idleWait view
          (offs.map (fun r => quietPoll ((base + r) % 2 ^ 32)) ++ pexit :: script) w =
            some (w2, script) ∧
        withoutSleep w2.trace = withoutSleep w.trace ++
          tickBlocks (offs.foldl (fun _ r => r) last / 100 - k) ∧
        w2.prevTick = (base + 100 * (offs.foldl (fun _ r => r) last / 100)) % 2 ^ 32 := by
  intro offs
  induction offs with
  | nil =>
    intro last k w _ h1 h2 hprev hkeys hqueue
    refine ⟨arrive pexit w, ?_, ?_, ?_⟩
    · rw [List.map_nil, List.nil_append, idleWait_cons]
      have hk : kbhit (arrive pexit w) = true := by
        cases ht : pexit.typed with
        | nil => exact absurd ht hexit
        | cons t ts => simp [kbhit, arrive, hkeys, ht]
      simp [hk]
    · have : last / 100 - k = 0 := by omega
      rw [List.foldl_nil, this]
      simp [tickBlocks, arrive]
    · simp only [List.foldl_nil]
      have : last / 100 = k := by omega
      rw [this]
      exact hprev
  | cons r rest ih =>
    intro last k w hchain h1 h2 hprev hkeys hqueue
    rw [List.chain_cons] at hchain
    obtain ⟨⟨hr1, hr2⟩, hrest⟩ := hchain
    have hfinal := chain_le_last rest r hrest
    have hstep : idleWait view
        ((r :: rest).map (fun r => quietPoll ((base + r) % 2 ^ 32)) ++ pexit :: script) w =
        idleWait view (rest.map (fun r => quietPoll ((base + r) % 2 ^ 32)) ++ pexit :: script)
          (idleStep view ((base + r) % 2 ^ 32) w) := by
      rw [List.map_cons, List.cons_append, idleWait_cons, arrive_quietPoll]
      simp [kbhit, hkeys, hqueue, quietPoll]
    rw [hstep, List.foldl_cons]
    by_cases htick : 100 * (k + 1) ≤ r
    · -- a tick
      have hdiff : ((base + r) % 2 ^ 32 + 2 ^ 32 - w.prevTick) % 2 ^ 32 ≥ 100 := by
        rw [hprev]
        omega
      have hw1 : idleStep view ((base + r) % 2 ^ 32) w =
          renderPass view
            { w with
              prevTick := (w.prevTick + 100) % 2 ^ 32
              view := (view.OnTick w.view w.screen).1
              screen := (view.OnTick w.view w.screen).2
              trace := w.trace ++ [Event.OnTick] } := by
        unfold idleStep
        rw [if_pos hdiff]
      obtain ⟨w2, hw2, htr, hp⟩ := ih r (k + 1) (idleStep view ((base + r) % 2 ^ 32) w)
        hrest htick (by omega)
        (by rw [hw1, hprev]; show ((base + 100 * k) % 2 ^ 32 + 100) % 2 ^ 32 = _; omega)
        (by rw [hw1]; exact hkeys)
        (by
          rw [hw1]
          show (view.Render _ (ClearBuffer _)).2.m_invokee = []
          rw [hRender]
          show (view.OnTick w.view w.screen).2.m_invokee = []
          rw [hTick]
          exact hqueue)
      refine ⟨w2, hw2, ?_, hp⟩
      rw [htr, idleStep_trace, if_pos hdiff, withoutSleep_append]
      have hsplit : rest.foldl (fun _ r => r) r / 100 - k =
          (rest.foldl (fun _ r => r) r / 100 - (k + 1)) + 1 := by omega
      rw [hsplit, tickBlocks, List.append_assoc]
      rfl
    · -- no tick
      have hdiff : ¬ ((base + r) % 2 ^ 32 + 2 ^ 32 - w.prevTick) % 2 ^ 32 ≥ 100 := by
        rw [hprev]
        omega
      have hw1 : idleStep view ((base + r) % 2 ^ 32) w =
          { w with trace := w.trace ++ [Event.Sleep] } := by
        unfold idleStep
        rw [if_neg hdiff]
      obtain ⟨w2, hw2, htr, hp⟩ := ih r k (idleStep view ((base + r) % 2 ^ 32) w)
        hrest (by omega) (by omega)
        (by rw [hw1]; exact hprev) (by rw [hw1]; exact hkeys) (by rw [hw1]; exact hqueue)
      refine ⟨w2, hw2, ?_, hp⟩
      rw [htr, hw1]
      show withoutSleep (w.trace ++ [Event.Sleep]) ++ _ = _
      rw [withoutSleep_append]
      simp [withoutSleep]

/-- C16 (as stated, refuted): an idle period in which the clock moves 250 ms past
the baseline, with the loop polling once, at 250 ms, before a key ends the wait:
the wait makes one `OnTick` call, not two, and `prevTick` is 100 ms past the
baseline. -/
theorem C16_late_poll_makes_one_tick :
    (idleWait quitOnKey
        [quietPoll 250, { typed := [27], invoked := [], nowTick := 250 }]
        { screen := Screen.fresh, view := (), keys := [], prevTick := 0, trace := [] }).map
      (fun r => (r.1.trace, r.1.prevTick, r.2)) =
    some ([Event.OnTick, Event.ClearBuffer, Event.Render, Event.DrawBuffer], 100, []) :=
  rfl

/-- C16 (amended): in the idle wait (no key available, empty queue), with the clock
a 32-bit millisecond counter. A poll at which nothing arrives stays in the wait
and runs the body once; when `(now - prevTick) mod 2^32 ≥ 100` the body advances
`prevTick` by exactly 100 (mod 2^32), calls `OnTick` once and then makes one
`ClearBuffer`, `Render`, `DrawBuffer` pass; when it is `< 100` the body only sleeps.
Hence over an idle period whose readings move from the baseline to `E` past it,
`200 ≤ E < 300`, each poll less than 100 ms after the one before, the wait makes
exactly two `OnTick` calls, each followed at once by one render pass, and no other
call but `Sleep(1)`. -/
theorem C16_tick_every_100ms {V : Type} (view : IScreenClient V)
    (hTick : ∀ v s, (view.OnTick v s).2.m_invokee = s.m_invokee)
    (hRender : ∀ v s, (view.Render v s).2.m_invokee = s.m_invokee)
    (w : LoopState V) (hkeys : w.keys = []) (hqueue : w.screen.m_invokee = [])
    (hprev : w.prevTick < 2 ^ 32) (now : Nat) (script : List Poll)
    (pre : List Nat) (E : Nat) (pexit : Poll) (hexit : pexit.typed ≠ [])
    (hchain : List.Chain (fun a b => a ≤ b ∧ b < a + 100) 0 (pre ++ [E]))
    (hE1 : 200 ≤ E) (hE2 : E < 300) :
    idleWait view (quietPoll now :: script) w = idleWait view script (idleStep view now w) ∧
    ((now + 2 ^ 32 - w.prevTick) % 2 ^ 32 ≥ 100 →
      idleStep view now w =
        renderPass view
          { w with
            prevTick := (w.prevTick + 100) % 2 ^ 32
            view := (view.OnTick w.view w.screen).1
            screen := (view.OnTick w.view w.screen).2
            trace := w.trace ++ [Event.OnTick] } ∧
      (idleStep view now w).prevTick = (w.prevTick + 100) % 2 ^ 32 ∧
      (idleStep view now w).trace =
        w.trace ++ [Event.OnTick, Event.ClearBuffer, Event.Render, Event.DrawBuffer]) ∧
    ((now + 2 ^ 32 - w.prevTick) % 2 ^ 32 < 100 →
      idleStep view now w = { w with trace := w.trace ++ [Event.Sleep] }) ∧
    ∃ w2, idleWait view
        ((pre ++ [E]).map (fun r => quietPoll ((w.prevTick + r) % 2 ^ 32)) ++
          pexit :: script) w = some (w2, script) ∧
      withoutSleep w2.trace = withoutSleep w.trace ++
        [Event.OnTick, Event.ClearBuffer, Event.Render, Event.DrawBuffer,
         Event.OnTick, Event.ClearBuffer, Event.Render, Event.DrawBuffer] ∧
      w2.prevTick = (w.prevTick + 200) % 2 ^ 32 := by
  refine ⟨?_, ?_, ?_, ?_⟩
  · rw [idleWait_cons, arrive_quietPoll]
    simp [kbhit, hkeys, hqueue, quietPoll]
  · intro hdiff
    have h1 : idleStep view now w =
        renderPass view
          { w with
            prevTick := (w.prevTick + 100) % 2 ^ 32
            view := (view.OnTick w.view w.screen).1
            screen := (view.OnTick w.view w.screen).2
            trace := w.trace ++ [Event.OnTick] } := by
      unfold idleStep
      rw [if_pos hdiff]
    refine ⟨h1, by rw [h1]; rfl, ?_⟩
    rw [idleStep_trace, if_pos hdiff]
  · intro hdiff
    unfold idleStep
    rw [if_neg (by omega)]
  · obtain ⟨w2, h1, h2, h3⟩ :=
      idleWait_ticks view hTick hRender w.prevTick pexit hexit script (pre ++ [E]) 0 0 w
        hchain (by omega) (by omega) (by simp; omega) hkeys hqueue
    have hfinal : (pre ++ [E]).foldl (fun _ r => r) 0 = E := by
      rw [List.foldl_append]
      rfl
    rw [hfinal] at h2 h3
    have hE : E / 100 = 2 := by omega
    rw [hE] at h2 h3
    exact ⟨w2, h1, h2, h3⟩

theorem C16_tick_every_100ms_witness :
    ∃ w2, idleWait quitOnKey
        (([40, 110, 180, 250].map (fun r => quietPoll ((4294967200 + r) % 2 ^ 32))) ++
          [{ typed := [27], invoked := [], nowTick := 0 }])
        { screen := Screen.fresh, view := (), keys := [], prevTick := 4294967200,
          trace := [] } = some (w2, []) ∧
      withoutSleep w2.trace =
        [Event.OnTick, Event.ClearBuffer, Event.Render, Event.DrawBuffer,
         Event.OnTick, Event.ClearBuffer, Event.Render, Event.DrawBuffer] ∧
      w2.prevTick = 104 := by
  obtain ⟨w2, h1, h2, h3⟩ := (C16_tick_every_100ms quitOnKey (fun _ _ => rfl) (fun _ _ => rfl)
    { screen := Screen.fresh, view := (), keys := [], prevTick := 4294967200, trace := [] }
    rfl rfl (by decide) 0 [] [40, 110, 180] 250
    { typed := [27], invoked := [], nowTick := 0 } (by simp)
    (by simp) (by decide) (by decide)).2.2.2
  exact ⟨w2, h1, h2, h3⟩

/-! ## The client `View` -/

/-- A loop in `Except` whose body never throws and keeps an invariant completes and
keeps the invariant. -/
theorem foldlM_ok_inv {α σ : Type} (P : σ → Prop) (f : σ → α → Except Exn σ) (l : List α)
    (h : ∀ st x, x ∈ l → P st → ∃ st2, f st x = .ok st2 ∧ P st2) :
    ∀ init, P init → ∃ out, l.foldlM f init = .ok out ∧ P out := by
  induction l with
  | nil => intro init hi; exact ⟨init, rfl, hi⟩
  | cons a rest ih =>
    intro init hi
    obtain ⟨st2, h1, h2⟩ := h init a (List.mem_cons_self _ _) hi
    obtain ⟨out, h3, h4⟩ :=
      ih (fun st x hx hst => h st x (List.mem_cons_of_mem _ hx) hst) st2 h2
    refine ⟨out, ?_, h4⟩
    rw [List.foldlM_cons, h1]
    exact h3

/-- One cell of `View::Render`, for `dx < 50` and `dy < 15`: `GetChar` does not
throw, the buffer keeps its length and the call made, if any, is inside the
grid. -/
theorem renderCell_ok (v : View) (dy dx : Nat) (hdy : dy < 15) (hdx : dx < 50)
    (st : Screen × List (Int × Int))
    (hlen : st.1.m_buffer.length = BUFFER_LENGTH) (hcalls : ∀ c ∈ st.2, callInGrid c) :
    ∃ st2, View.renderCell v dy dx st = .ok st2 ∧
      st2.1.m_buffer.length = BUFFER_LENGTH ∧ ∀ c ∈ st2.2, callInGrid c := by
  unfold View.renderCell
  simp only []
  generalize wrapInt32 (wrapInt32 (v.m_sightx - GetSize.width / 3 / 2) + (dx : Int)) = x
  generalize wrapInt32 (wrapInt32 (v.m_sighty - GetSize.height / 3 / 2) + (dy : Int)) = y
  by_cases hx : x < 0 ∨ x ≥ v.Terrain.Width
  · rw [if_pos hx]
    exact ⟨st, rfl, hlen, hcalls⟩
  · rw [if_neg hx]
    by_cases hy : y < 0 ∨ y ≥ v.Terrain.Height
    · rw [if_pos hy]
      exact ⟨st, rfl, hlen, hcalls⟩
    · rw [if_neg hy]
      have hy0 : 0 ≤ y := by omega
      have hmod : Int.tmod y 2 = y % 2 := Int.tmod_eq_emod hy0 (by decide)
      have hpx : wrapInt32 (wrapInt32 (wrapInt32 ((dx : Int) * 3) + 1) - Int.tmod y 2) =
          (dx : Int) * 3 + 1 - y % 2 := by
        rw [hmod, wrapInt32_of_inRange ((dx : Int) * 3) (by omega) (by omega),
          wrapInt32_of_inRange ((dx : Int) * 3 + 1) (by omega) (by omega),
          wrapInt32_of_inRange ((dx : Int) * 3 + 1 - y % 2) (by omega) (by omega)]
      have hpy : wrapInt32 (wrapInt32 ((dy : Int) * 3) + 1) = (dy : Int) * 3 + 1 := by
        rw [wrapInt32_of_inRange ((dy : Int) * 3) (by omega) (by omega),
          wrapInt32_of_inRange ((dy : Int) * 3 + 1) (by omega) (by omega)]
      rw [hpx, hpy]
      clear hpx hpy hmod
      have hB : ((BUFFER_LENGTH : Nat) : Int) = 6750 := rfl
      have hacc := (accessors_inside st.1 ((dx : Int) * 3 + 1 - y % 2) ((dy : Int) * 3 + 1)
        (by rw [hlen]; decide) (by omega) (by rw [hlen, hB]; omega)).2
      rw [hacc]
      have hlt : (((dy : Int) * 3 + 1) * 150 + ((dx : Int) * 3 + 1 - y % 2)).toNat <
          st.1.m_buffer.length := by
        rw [hlen]
        have : BUFFER_LENGTH = 6750 := rfl
        omega
      simp only [List.getElem?_eq_getElem hlt]
      refine ⟨_, rfl, ?_, ?_⟩
      · simp [hlen]
      · intro c hc
        rw [List.mem_append] at hc
        rcases hc with hc | hc
        · exact hcalls c hc
        · rw [List.mem_singleton] at hc
          rw [hc]
          unfold callInGrid
          simp only []
          omega

/-- C19: for every sight position (negative ones too) and every terrain width and
height, `View::Render` on a 150x45 screen completes without `GetChar` throwing,
and every call `GetChar(px, py)` it makes has `0 ≤ px ≤ 148` and `1 ≤ py ≤ 43`, so
it lies inside the grid. -/
theorem C19_Render_stays_in_grid (v : View) (s : Screen)
    (hlen : s.m_buffer.length = BUFFER_LENGTH) :
    ∃ out calls, View.Render v s = .ok (out, calls) ∧
      out.m_buffer.length = BUFFER_LENGTH ∧
      ∀ c ∈ calls, (0 ≤ c.1 ∧ c.1 ≤ 148 ∧ 1 ≤ c.2 ∧ c.2 ≤ 43) ∧
        (0 ≤ c.1 ∧ c.1 < GetSize.width ∧ 0 ≤ c.2 ∧ c.2 < GetSize.height) := by
  have hsx : (GetSize.width / 3).toNat = 50 := by decide
  have hsy : (GetSize.height / 3).toNat = 15 := by decide
  obtain ⟨out, h1, h2, h3⟩ := foldlM_ok_inv
    (fun st : Screen × List (Int × Int) =>
      st.1.m_buffer.length = BUFFER_LENGTH ∧ ∀ c ∈ st.2, callInGrid c)
    (fun st (dy : Nat) =>
      (List.range (GetSize.width / 3).toNat).foldlM
        (fun st2 (dx : Nat) => View.renderCell v dy dx st2) st)
    (List.range (GetSize.height / 3).toNat)
    (by
      intro st dy hdy hst
      rw [hsy, List.mem_range] at hdy
      exact foldlM_ok_inv _ _ _
        (by
          intro st2 dx hdx hst2
          rw [hsx, List.mem_range] at hdx
          exact renderCell_ok v dy dx hdy hdx st2 hst2.1 hst2.2)
        st hst)
    (s, []) ⟨hlen, by simp⟩
  refine ⟨out.1, out.2, h1, h2, ?_⟩
  intro c hc
  have hg := h3 c hc
  unfold callInGrid at hg
  have hw : GetSize.width = 150 := rfl
  have hh : GetSize.height = 45 := rfl
  rw [hw, hh]
  omega

theorem C19_Render_stays_in_grid_witness :
    ∃ out calls, View.Render
        { m_sightx := -3, m_sighty := -2,
          Terrain := { Width := 128, Height := 80,
                       GetPoint := fun _ _ => { Type1 := TerrainType1.Grass,
                                                Type2 := TerrainType2.Hill } } }
        Screen.fresh = .ok (out, calls) ∧
      out.m_buffer.length = BUFFER_LENGTH :=
  (C19_Render_stays_in_grid _ Screen.fresh fresh_length).elim
    (fun out h => h.elim (fun calls hc => ⟨out, calls, hc.1, hc.2.1⟩))

/-! ## Quit during the idle wait -/

/-- A completed run that starts with `m_quit` clear ends right after a dispatch: the
last call of its trace is an `OnKeyStroke` or the `LeaveCriticalSection` that
closes an action. -/
theorem Loop_run_ends_with_dispatch {V : Type} (view : IScreenClient V)
    (acts : ActionId → V → Screen → V × Screen) :
    ∀ (fuel : Nat) (script : List Poll) (w : LoopState V) (c : Int) (w2 : LoopState V),
      w.screen.m_quit = false → Loop.run view acts fuel script w = some (c, w2) →
      (∃ ch, w2.trace.getLast? = some (Event.OnKeyStroke ch)) ∨
        w2.trace.getLast? = some Event.LeaveCriticalSection := by
  intro fuel
  induction fuel with
  | zero => intro script w c w2 _ h; simp [Loop.run] at h
  | succ n ih =>
    intro script w c w2 hq h
    rw [Loop_run_succ] at h
    simp only [hq, Bool.false_eq_true, if_false] at h
    rcases hb : Loop.body view acts script w with _ | ⟨w3, script2⟩
    · simp [hb] at h
    · simp only [hb, Option.some_bind] at h
      obtain ⟨wa, h1, h2⟩ := Loop_body_some view acts script script2 w w3 hb
      have hexit := idleWait_exit view script _ wa script2 h1
      have h3 := dispatch_trace view acts wa w3 hexit h2
      by_cases hq3 : w3.screen.m_quit = true
      · cases n with
        | zero => simp [Loop.run] at h
        | succ m =>
          rw [Loop_run_succ] at h
          simp only [hq3, if_true, Option.some.injEq, Prod.mk.injEq] at h
          rw [← h.2]
          rcases h3 with ⟨ch, hch⟩ | ⟨act, hact⟩
          · left
            exact ⟨ch, by rw [hch]; simp⟩
          · right
            rw [hact]
            simp
      · exact ih script2 w3 c w2 (by simpa using hq3) h

/-- C20: `Quit` called from `OnTick` does not end the idle wait. In the wait with
`m_quit` set, no key available and an empty queue, a poll at which nothing
arrives stays in the wait and runs its body, which never tests `m_quit`; a tick
that falls due still calls `OnTick` and makes a render pass. A run of `Loop`
entered with `m_quit` clear returns only right after a key or a queued action has
been dispatched. -/
theorem C20_quit_in_tick_keeps_waiting {V : Type} (view : IScreenClient V)
    (acts : ActionId → V → Screen → V × Screen) (w : LoopState V)
    (hquit : w.screen.m_quit = true) (hkeys : w.keys = [])
    (hqueue : w.screen.m_invokee = []) (now : Nat) (script : List Poll) :
    idleWait view (quietPoll now :: script) w = idleWait view script (idleStep view now w) ∧
    ((now + 2 ^ 32 - w.prevTick) % 2 ^ 32 ≥ 100 →
      (idleStep view now w).trace =
        w.trace ++ [Event.OnTick, Event.ClearBuffer, Event.Render, Event.DrawBuffer] ∧
      (idleStep view now w).screen =
        (view.Render (view.OnTick w.view w.screen).1
          (ClearBuffer (view.OnTick w.view w.screen).2)).2) ∧
    ((now + 2 ^ 32 - w.prevTick) % 2 ^ 32 < 100 →
      idleStep view now w = { w with trace := w.trace ++ [Event.Sleep] } ∧
      (idleStep view now w).screen.m_quit = true) ∧
    (∀ (fuel : Nat) (script0 : List Poll) (w0 : LoopState V) (c : Int) (w2 : LoopState V),
      w0.screen.m_quit = false → Loop.run view acts fuel script0 w0 = some (c, w2) →
      (∃ ch, w2.trace.getLast? = some (Event.OnKeyStroke ch)) ∨
        w2.trace.getLast? = some Event.LeaveCriticalSection) := by
  refine ⟨?_, ?_, ?_, Loop_run_ends_with_dispatch view acts⟩
  · rw [idleWait_cons, arrive_quietPoll]
    simp [kbhit, hkeys, hqueue, quietPoll]
  rotate_left
  · intro hdiff
    have h1 : idleStep view now w = { w with trace := w.trace ++ [Event.Sleep] } := by
      unfold idleStep
      rw [if_neg (by omega)]
    exact ⟨h1, by rw [h1]; exact hquit⟩
  · intro hdiff
    constructor
    · rw [idleStep_trace, if_pos hdiff]
    · unfold idleStep
      rw [if_pos hdiff]
      rfl

theorem C20_quit_in_tick_keeps_waiting_witness :
    Loop quitOnTick idleActions 0
        [quietPoll 100, quietPoll 200, { typed := [65], invoked := [], nowTick := 230 }]
        [] () Screen.fresh =
      some (5, { screen := Quit 5 (ClearBuffer (Quit 5 (ClearBuffer (ClearBuffer Screen.fresh)))),
                 view := (), keys := [], prevTick := 200,
                 trace := [Event.ClearBuffer, Event.Render, Event.DrawBuffer,
                   Event.OnTick, Event.ClearBuffer, Event.Render, Event.DrawBuffer,
                   Event.OnTick, Event.ClearBuffer, Event.Render, Event.DrawBuffer,
                   Event.OnKeyStroke 65] }) ∧
    idleWait quitOnTick [quietPoll 200, { typed := [65], invoked := [], nowTick := 230 }]
        { screen := Quit 5 Screen.fresh, view := (), keys := [], prevTick := 100,
          trace := [] } =
      idleWait quitOnTick [{ typed := [65], invoked := [], nowTick := 230 }]
        (idleStep quitOnTick 200
          { screen := Quit 5 Screen.fresh, view := (), keys := [], prevTick := 100,
            trace := [] }) :=
  ⟨rfl, (C20_quit_in_tick_keeps_waiting quitOnTick idleActions
    { screen := Quit 5 Screen.fresh, view := (), keys := [], prevTick := 100, trace := [] }
    rfl rfl rfl 200 [{ typed := [65], invoked := [], nowTick := 230 }]).1⟩

end FakeView
